import Mathlib

/-!
Verification of the FluentRead batch-translation pipeline.

This file shallowly embeds the data model and the algorithms of the
batch-translation pipeline (entrypoints/utils/batchTranslate.ts and its
revisions src/unnamed/part_004 and src/unnamed/part_005), the resilient
response parser (entrypoints/utils/responseParser.ts), and the JSON result
parser (entrypoints/utils/jsonParser.ts), and proves or refutes the
specification claims about them.

Modelling conventions:
- JavaScript strings are modelled as lists of characters.  All inputs of
  interest live in the Basic Multilingual Plane, where the JavaScript
  UTF-16 length coincides with the character count.
- JavaScript floating-point arithmetic on the small integer quantities
  involved (token counts, ratios) is modelled exactly with rational
  numbers; Math.ceil is the integer ceiling.
- Asynchronous control flow is modelled by explicit state passing: the
  transport is an explicit argument (its raw reply, or a failure), and a
  small event-step relation models the queue, its timer and the
  single-threaded event loop.
-/

set_option maxHeartbeats 1600000

namespace FluentRead

/-- A JavaScript string, modelled as a list of characters. -/
abbrev Str := List Char

/-- Coerce a Lean string literal into the model. -/
def ofStr (s : String) : Str := s.data

/-- Character class of the regex [一-龥] used by both token
estimators (the common approximation of the CJK Unified Ideographs range). -/
def isCJK (c : Char) : Bool := 0x4e00 ≤ c.toNat && c.toNat ≤ 0x9fa5

/-- Character class of the regex [a-zA-Z] (0x61-0x7a and 0x41-0x5a). -/
def isLatin (c : Char) : Bool :=
  (0x61 ≤ c.toNat && c.toNat ≤ 0x7a) || (0x41 ≤ c.toNat && c.toNat ≤ 0x5a)

/-- Accumulator loop extracting the maximal runs matched by the global
regex /[a-zA-Z]+/g.  The current run is carried reversed. -/
def latinRunsAux : Str → Str → List Str
  | [], cur => if cur = [] then [] else [cur.reverse]
  | c :: cs, cur =>
    if isLatin c then
      latinRunsAux cs (c :: cur)
    else if cur = [] then
      latinRunsAux cs []
    else
      cur.reverse :: latinRunsAux cs []

/-- Maximal runs matched by the global regex /[a-zA-Z]+/g: the list of
maximal consecutive substrings of Latin letters, in order. -/
def latinRuns (s : Str) : List Str := latinRunsAux s []

/-- Exact integer value of Math.ceil (m / 10) for a natural m, used to
express the token formulas (whose weights are multiples of 0.1) without
rational arithmetic. -/
def ceilTen (m : ℕ) : ℕ := (m + 9) / 10

/-- Token ceiling of batchTranslate.ts (MAX_TOKENS_PER_BATCH). -/
def maxTokensPerBatch : ℕ := 3000

/-- estimateTokens from batchTranslate.ts (identical in part_004/part_005):
Math.ceil of 2 per character in [一-龥], 1.3 per maximal [a-zA-Z]+ run
and 0.5 per remaining character, where "remaining" is the string length
minus the CJK character count minus the RUN count (exactly as in the
source: otherChars = text.length - chineseChars - englishWords).  The
ceiling of the tenths-valued sum is taken exactly via ceilTen; the lemma
estimateTokens_eq_ceil below certifies the agreement with the source
formula written with rational weights. -/
def estimateTokens (text : Str) : ℕ :=
  let chineseChars := (text.filter isCJK).length
  let englishWords := (latinRuns text).length
  let otherChars := text.length - chineseChars - englishWords
  ceilTen (20 * chineseChars + 13 * englishWords + 5 * otherChars)

/-- A queued translation request (interface BatchTask), without its
resolve/reject handles, which are modelled by outcome maps instead. -/
structure BatchTask where
  origin : Str
  context : Str
deriving DecidableEq

/-- Estimated cost of one task, as computed inside groupTasks. -/
def taskCost (t : BatchTask) : ℕ := estimateTokens t.origin

/-- Summed estimated cost of a group. -/
def groupCost (g : List BatchTask) : ℕ := (g.map taskCost).sum

/-- The loop of groupTasks from batchTranslate.ts, with the running group
and its running token total as explicit accumulators. -/
def groupTasksAux : List BatchTask → List BatchTask → ℕ → List (List BatchTask)
  | [], currentGroup, _ =>
    if currentGroup = [] then [] else [currentGroup]
  | task :: rest, currentGroup, currentTokens =>
    let taskTokens := taskCost task
    if maxTokensPerBatch < taskTokens then
      (if currentGroup = [] then [] else [currentGroup])
        ++ [task] :: groupTasksAux rest [] 0
    else if maxTokensPerBatch < currentTokens + taskTokens ∧ currentGroup ≠ [] then
      currentGroup :: groupTasksAux rest [task] taskTokens
    else
      groupTasksAux rest (currentGroup ++ [task]) (currentTokens + taskTokens)

/-- groupTasks from batchTranslate.ts: partition the queued tasks into
groups whose summed estimated token cost stays under the ceiling. -/
def groupTasks (tasks : List BatchTask) : List (List BatchTask) :=
  groupTasksAux tasks [] 0

/-- Spec-side count of characters in the CJK range, as worded in C8. -/
def specCJKCount (s : Str) : ℕ := s.countP (fun c => isCJK c)

/-- Spec-side count of Latin letters, as worded in C8 (every Latin letter
belongs to exactly one maximal run). -/
def specLatinCharCount (s : Str) : ℕ := s.countP (fun c => isLatin c)

/-- Helper for specLatinRunCount: counts characters that start a maximal
Latin run, given the previous character. -/
def specLatinRunCountAux : Char → Str → ℕ
  | _, [] => 0
  | prev, c :: cs =>
    (if isLatin c && !isLatin prev then 1 else 0) + specLatinRunCountAux c cs

/-- Spec-side number of maximal runs of Latin letters: the number of
positions holding a Latin letter not preceded by a Latin letter. -/
def specLatinRunCount : Str → ℕ
  | [] => 0
  | c :: cs => (if isLatin c then 1 else 0) + specLatinRunCountAux c cs

/-- The estimator formula exactly as claim C8 words it: 0.5 is applied to
the characters that are neither CJK ideographs nor Latin letters belonging
to a run (i.e. length minus CJK count minus Latin LETTER count). -/
def claimEstimateTokens (s : Str) : ℤ :=
  ⌈(2 * (specCJKCount s : ℚ) + 13 / 10 * (specLatinRunCount s : ℚ)
      + 1 / 2 * ((s.length - specCJKCount s - specLatinCharCount s : ℕ) : ℚ))⌉

/-- The amended estimator formula: 0.5 is applied to length minus CJK count
minus the RUN count (as the source computes otherChars). -/
def amendedEstimateTokens (s : Str) : ℤ :=
  ⌈(2 * (specCJKCount s : ℚ) + 13 / 10 * (specLatinRunCount s : ℚ)
      + 1 / 2 * ((s.length - specCJKCount s - specLatinRunCount s : ℕ) : ℚ))⌉

/-- Whitespace class of the JavaScript regex escape backslash-s (ASCII
whitespace plus the Unicode space characters). -/
def isJsWs (c : Char) : Bool :=
  c = ' ' || c = '\t' || c = '\n' || c = '\r' ||
    c.toNat = 0x0b || c.toNat = 0x0c || c.toNat = 0xa0 || c.toNat = 0x1680 ||
    (0x2000 ≤ c.toNat && c.toNat ≤ 0x200a) || c.toNat = 0x2028 ||
    c.toNat = 0x2029 || c.toNat = 0x202f || c.toNat = 0x205f ||
    c.toNat = 0x3000 || c.toNat = 0xfeff

/-- String.prototype.includes: does pat occur as a contiguous substring. -/
def strContains (pat : Str) : Str → Bool
  | [] => pat.isPrefixOf []
  | c :: rest => pat.isPrefixOf (c :: rest) || strContains pat rest

/-- Match a literal pattern at the head of a string, returning the rest. -/
def dropLit : Str → Str → Option Str
  | [], s => some s
  | _ :: _, [] => none
  | p :: ps, c :: cs => if c = p then dropLit ps cs else none

/-- Head of the regex of repairTruncatedJson: the literal "translations"
in quotes, optional whitespace, a colon, optional whitespace, an opening
bracket.  Returns the remainder after the bracket. -/
def matchTransAt (s : Str) : Option Str :=
  match dropLit (ofStr "\"translations\"") s with
  | none => none
  | some r1 =>
    match r1.dropWhile isJsWs with
    | ':' :: r3 =>
      match r3.dropWhile isJsWs with
      | '[' :: r5 => some r5
      | _ => none
    | _ => none

/-- The regex engine scans for the first position where the head pattern
matches (String.prototype.match with a non-global regex). -/
def findTransArray : Str → Option Str
  | [] => matchTransAt []
  | c :: rest =>
    match matchTransAt (c :: rest) with
    | some r => some r
    | none => findTransArray rest

/-- The lazy capture group of the regex of repairTruncatedJson: the
shortest prefix terminated by the first closing bracket, closing brace or
the end of input.  The terminator is not part of the capture, so the
captured text can never contain a closing brace. -/
def lazyCapture (s : Str) : Str :=
  s.takeWhile (fun c => !(c = ']' || c = '\x7d'))

/-- String.prototype.trim on the model. -/
def trimStr (s : Str) : Str :=
  ((s.dropWhile isJsWs).reverse.dropWhile isJsWs).reverse

/-- The replace of the trailing-comma regex (comma plus trailing
whitespace at the end of the string). -/
def stripTrailingComma (s : Str) : Str :=
  match s.reverse.dropWhile isJsWs with
  | ',' :: rest => rest.reverse
  | _ => s

/-- State of the character scan loop of repairTruncatedJson. -/
structure ScanState where
  completeObjects : List Str
  depth : ℤ
  currentObj : Str
  inString : Bool
  escapeNext : Bool
deriving DecidableEq

/-- The character scan loop of repairTruncatedJson, ported statement by
statement: escape handling, quote toggling, depth tracking outside
strings, and pushing the accumulated object when, outside a string at
depth zero, the trimmed accumulator ends in a closing brace. -/
def scanObjects : Str → ScanState → List Str
  | [], st => st.completeObjects
  | c :: cs, st =>
    if st.escapeNext then
      scanObjects cs { st with currentObj := st.currentObj ++ [c], escapeNext := false }
    else if c = '\\' then
      scanObjects cs { st with currentObj := st.currentObj ++ [c], escapeNext := true }
    else
      let inStr := if c = '"' then !st.inString else st.inString
      let dep :=
        if inStr then st.depth
        else if c = '\x7b' then st.depth + 1
        else if c = '\x7d' then st.depth - 1
        else st.depth
      let cur := st.currentObj ++ [c]
      if inStr = false ∧ dep = 0 ∧ (trimStr cur).getLast? = some '\x7d' then
        scanObjects cs
          { completeObjects := st.completeObjects ++ [stripTrailingComma (trimStr cur)],
            depth := dep, currentObj := [], inString := inStr, escapeNext := false }
      else
        scanObjects cs
          { st with inString := inStr, depth := dep, currentObj := cur }

/-- repairTruncatedJson from responseParser.ts: check for the
"translations" substring, extract the lazy capture after the opening
bracket of the array, scan it for complete objects, and reassemble; null
when nothing was recovered. -/
def repairTruncatedJson (content : Str) : Option Str :=
  if strContains (ofStr "\"translations\"") content = false then none
  else
    match findTransArray content with
    | none => none
    | some rest =>
      let arrayContent := lazyCapture rest
      let completeObjects := scanObjects arrayContent ⟨[], 0, [], false, false⟩
      if completeObjects = [] then none
      else
        some (ofStr "\x7b\"translations\":[" ++ List.intercalate [','] completeObjects
          ++ ofStr "]\x7d")

/-- The response of the specification example: sixteen complete
translation objects followed by a seventeenth fragment cut off just after
its index field (the nemotron truncation case the repair strategy was
written for). -/
def truncatedResponse16 : Str :=
  ofStr "\x7b\"translations\":[\x7b\"index\":1,\"text\":\"t1\"\x7d,\x7b\"index\":2,\"text\":\"t2\"\x7d,\x7b\"index\":3,\"text\":\"t3\"\x7d,\x7b\"index\":4,\"text\":\"t4\"\x7d,\x7b\"index\":5,\"text\":\"t5\"\x7d,\x7b\"index\":6,\"text\":\"t6\"\x7d,\x7b\"index\":7,\"text\":\"t7\"\x7d,\x7b\"index\":8,\"text\":\"t8\"\x7d,\x7b\"index\":9,\"text\":\"t9\"\x7d,\x7b\"index\":10,\"text\":\"t10\"\x7d,\x7b\"index\":11,\"text\":\"t11\"\x7d,\x7b\"index\":12,\"text\":\"t12\"\x7d,\x7b\"index\":13,\"text\":\"t13\"\x7d,\x7b\"index\":14,\"text\":\"t14\"\x7d,\x7b\"index\":15,\"text\":\"t15\"\x7d,\x7b\"index\":16,\"text\":\"t16\"\x7d,\x7b\"index\": 1"

/-- The truncated response of the repository's own test suite
(test-response-parser.ts, case "slightly truncated JSON, auto-repaired"),
which the suite expects to be repaired to one complete entry. -/
def truncatedResponseSmall : Str :=
  ofStr "\x7b\"translations\":[\x7b\"index\":0,\"text\":\"done\"\x7d,\x7b\"index\":1,\"text\":\"cut"

/-- JSON values as produced by JSON.parse.  Numbers are restricted to
integers (all indices and counts in the protocol are integral; the parser
below rejects non-integral numerals, a documented model restriction). -/
inductive Json where
  | null : Json
  | bool : Bool → Json
  | num : ℤ → Json
  | str : Str → Json
  | arr : List Json → Json
  | obj : List (Str × Json) → Json

/-- Property lookup on a parsed object.  JSON.parse assigns properties in
textual order, so a duplicated key ends up with its last value. -/
def getField (fields : List (Str × Json)) (key : Str) : Option Json :=
  (fields.filter (fun kv => kv.1 = key)).getLast?.map (fun kv => kv.2)

/-- Is the value the JSON null (the item.text !== null test). -/
def isNullJson : Json → Bool
  | .null => true
  | _ => false

/-- JavaScript truthiness of a parsed JSON value. -/
def jsTruthy : Json → Bool
  | .null => false
  | .bool b => b
  | .num n => decide (n ≠ 0)
  | .str s => decide (s ≠ [])
  | .arr _ => true
  | .obj _ => true

/-- Decimal digits of a natural number (fuel-indexed long division). -/
def natDigits : ℕ → ℕ → Str
  | 0, _ => []
  | fuel + 1, n =>
    if n = 0 then []
    else natDigits fuel (n / 10) ++ [Char.ofNat (48 + n % 10)]

/-- String form of an integer, as String(number) renders integral
doubles. -/
def intToStr (n : ℤ) : Str :=
  if n = 0 then ofStr "0"
  else if n < 0 then '-' :: natDigits (n.natAbs + 1) n.natAbs
  else natDigits (n.natAbs + 1) n.natAbs

/-- Worker for String(value) on parsed JSON values, fuel-indexed on the
total size of the value (arrays stringify their elements joined by commas,
with null elements rendered empty; objects render as [object Object]).
The fuel is always instantiated above the size of any value of
interest. -/
def jsToStrAux : ℕ → Json ⊕ List Json → Str
  | 0, _ => []
  | fuel + 1, .inl j =>
    match j with
    | .null => ofStr "null"
    | .bool true => ofStr "true"
    | .bool false => ofStr "false"
    | .num n => intToStr n
    | .str s => s
    | .obj _ => ofStr "[object Object]"
    | .arr xs => jsToStrAux fuel (.inr xs)
  | fuel + 1, .inr l =>
    match l with
    | [] => []
    | [x] =>
      match x with
      | .null => []
      | y => jsToStrAux fuel (.inl y)
    | x :: xs =>
      (match x with
        | .null => []
        | y => jsToStrAux fuel (.inl y)) ++ ',' :: jsToStrAux fuel (.inr xs)

/-- String(value) for parsed JSON values. -/
def jsToStringF (fuel : ℕ) (j : Json) : Str := jsToStrAux fuel (.inl j)

/-- Digit character for radix 10. -/
def isDigitCh (c : Char) : Bool := 48 ≤ c.toNat && c.toNat ≤ 57

/-- Hexadecimal digit character. -/
def isHexDigitCh (c : Char) : Bool :=
  isDigitCh c || (97 ≤ c.toNat && c.toNat ≤ 102) || (65 ≤ c.toNat && c.toNat ≤ 70)

/-- Numeric value of a hexadecimal digit. -/
def hexVal (c : Char) : ℕ :=
  if isDigitCh c then c.toNat - 48
  else if 97 ≤ c.toNat then c.toNat - 87
  else c.toNat - 55

/-- Fold a digit list into a natural number for the given base. -/
def digitsToNat (base : ℕ) (val : Char → ℕ) (l : Str) : ℕ :=
  l.foldl (fun acc c => acc * base + val c) 0

/-- parseInt(s) with no radix argument: skip leading whitespace, read an
optional sign, then either a 0x-prefixed hexadecimal or a decimal digit
run; NaN (none) when no digit follows.  Trailing garbage is ignored. -/
def jsParseInt (s : Str) : Option ℤ :=
  let t := s.dropWhile isJsWs
  let (neg, t1) :=
    match t with
    | '-' :: r => (true, r)
    | '+' :: r => (false, r)
    | _ => (false, t)
  let (digits, base) :=
    match t1 with
    | '0' :: 'x' :: r => (r.takeWhile isHexDigitCh, 16)
    | '0' :: 'X' :: r => (r.takeWhile isHexDigitCh, 16)
    | _ => (t1.takeWhile isDigitCh, 10)
  if digits = [] then none
  else
    let v : ℤ := digitsToNat base (fun c => if base = 16 then hexVal c else c.toNat - 48) digits
    some (if neg then -v else v)

/-- Whitespace recognised inside JSON documents by JSON.parse. -/
def isJsonWs (c : Char) : Bool := c = ' ' || c = '\t' || c = '\n' || c = '\r'

/-- One JSON string body, starting after the opening quote: returns the
decoded characters and the rest after the closing quote.  Unknown escapes,
raw control characters and a missing closing quote fail (JSON.parse
throws).  A \u escape denoting a UTF-16 surrogate maps through Char.ofNat
to the null character; no input of interest contains one. -/
def parseJsonString : Str → Option (Str × Str)
  | [] => none
  | '"' :: rest => some ([], rest)
  | '\\' :: rest =>
    match rest with
    | 'n' :: r => (parseJsonString r).map (fun p => ('\n' :: p.1, p.2))
    | 't' :: r => (parseJsonString r).map (fun p => ('\t' :: p.1, p.2))
    | 'r' :: r => (parseJsonString r).map (fun p => ('\r' :: p.1, p.2))
    | 'b' :: r => (parseJsonString r).map (fun p => (Char.ofNat 8 :: p.1, p.2))
    | 'f' :: r => (parseJsonString r).map (fun p => (Char.ofNat 12 :: p.1, p.2))
    | '"' :: r => (parseJsonString r).map (fun p => ('"' :: p.1, p.2))
    | '\\' :: r => (parseJsonString r).map (fun p => ('\\' :: p.1, p.2))
    | '/' :: r => (parseJsonString r).map (fun p => ('/' :: p.1, p.2))
    | 'u' :: a :: b :: c :: d :: r =>
      if isHexDigitCh a && isHexDigitCh b && isHexDigitCh c && isHexDigitCh d then
        (parseJsonString r).map (fun p =>
          (Char.ofNat (((hexVal a * 16 + hexVal b) * 16 + hexVal c) * 16 + hexVal d)
            :: p.1, p.2))
      else none
    | _ => none
  | c :: rest =>
    if c.toNat < 32 then none
    else (parseJsonString rest).map (fun p => (c :: p.1, p.2))

/-- A JSON integral numeral: optional sign, digits without a redundant
leading zero, an optional all-zero fraction (model restriction: numerals
with a nonzero fraction or an exponent are rejected rather than rounded;
no index or count of the protocol carries one). -/
def parseJsonNumber (s : Str) : Option (Json × Str) :=
  let (neg, t) :=
    match s with
    | '-' :: r => (true, r)
    | _ => (false, s)
  let digits := t.takeWhile isDigitCh
  if digits = [] then none
  else if digits.length ≥ 2 ∧ digits.head? = some '0' then none
  else
    let rest := t.drop digits.length
    let (frac, rest2) :=
      match rest with
      | '.' :: r => (r.takeWhile isDigitCh, r.drop (r.takeWhile isDigitCh).length)
      | _ => ([], rest)
    match rest with
    | '.' :: _ =>
      if frac = [] then none
      else if frac.all (fun c => c = '0') = false then none
      else finishNum neg digits rest2
    | _ => finishNum neg digits rest2
where
  finishNum (neg : Bool) (digits : Str) (rest : Str) : Option (Json × Str) :=
    match rest with
    | 'e' :: _ => none
    | 'E' :: _ => none
    | _ =>
      let v : ℤ := digitsToNat 10 (fun c => c.toNat - 48) digits
      some (.num (if neg then -v else v), rest)

/-- The recursive JSON grammar, fuel-indexed: at each fuel level the value
parser, the array-element loop and the object-member loop are built from
the parsers one level down.  Every recursive descent consumes input, so
any fuel above twice the input length is sufficient. -/
def jsonParsers : ℕ →
    ((Str → Option (Json × Str)) × (Str → Option (List Json × Str))
      × (Str → Option (List (Str × Json) × Str)))
  | 0 => (fun _ => none, fun _ => none, fun _ => none)
  | fuel + 1 =>
    let pv : Str → Option (Json × Str) := fun s =>
      let t := s.dropWhile isJsonWs
      match t with
      | 'n' :: r => (dropLit (ofStr "ull") r).map (fun r2 => (Json.null, r2))
      | 't' :: r => (dropLit (ofStr "rue") r).map (fun r2 => (Json.bool true, r2))
      | 'f' :: r => (dropLit (ofStr "alse") r).map (fun r2 => (Json.bool false, r2))
      | '"' :: r => (parseJsonString r).map (fun p => (Json.str p.1, p.2))
      | '[' :: r =>
        let r1 := r.dropWhile isJsonWs
        match r1 with
        | ']' :: r2 => some (Json.arr [], r2)
        | _ => ((jsonParsers fuel).2.1 r).map (fun p => (Json.arr p.1, p.2))
      | '\x7b' :: r =>
        let r1 := r.dropWhile isJsonWs
        match r1 with
        | '\x7d' :: r2 => some (Json.obj [], r2)
        | _ => ((jsonParsers fuel).2.2 r).map (fun p => (Json.obj p.1, p.2))
      | _ => parseJsonNumber t
    let pa : Str → Option (List Json × Str) := fun s =>
      match (jsonParsers fuel).1 s with
      | none => none
      | some (v, rest) =>
        let r1 := rest.dropWhile isJsonWs
        match r1 with
        | ']' :: r2 => some ([v], r2)
        | ',' :: r2 =>
          ((jsonParsers fuel).2.1 r2).map (fun p => (v :: p.1, p.2))
        | _ => none
    let po : Str → Option (List (Str × Json) × Str) := fun s =>
      let t := s.dropWhile isJsonWs
      match t with
      | '"' :: r =>
        match parseJsonString r with
        | none => none
        | some (key, r2) =>
          let r3 := r2.dropWhile isJsonWs
          match r3 with
          | ':' :: r4 =>
            match (jsonParsers fuel).1 r4 with
            | none => none
            | some (v, rest) =>
              let r5 := rest.dropWhile isJsonWs
              match r5 with
              | '\x7d' :: r6 => some ([(key, v)], r6)
              | ',' :: r6 =>
                ((jsonParsers fuel).2.2 r6).map (fun p => ((key, v) :: p.1, p.2))
              | _ => none
          | _ => none
      | _ => none
    (pv, pa, po)

/-- JSON.parse: parse one value and require only whitespace after it. -/
def jsonParse (s : Str) : Option Json :=
  match (jsonParsers (2 * s.length + 4)).1 s with
  | some (j, rest) => if rest.dropWhile isJsonWs = [] then some j else none
  | none => none

/-- The text delivered for one parsed entry: the text field itself when it
is a string, its String(...) rendering otherwise. -/
def jsTextValue (fuel : ℕ) (t : Json) : Str :=
  match t with
  | .str s => s
  | other => jsToStringF fuel other

/-- One iteration of the forEach loop of the standard-format branch of
parseBatchTranslations (jsonParser.ts): an object entry needs a truthy
index and a text field that is neither undefined nor null; a tuple entry
needs length at least two; the parsed index minus one must fall in
[0, expectedCount); the write overwrites the slot. -/
def applyItem (fuel n : ℕ) (results : List Str) (item : Json) : List Str :=
  match item with
  | .obj fs =>
    match getField fs (ofStr "index"), getField fs (ofStr "text") with
    | some idxJ, some textJ =>
      if jsTruthy idxJ = true ∧ isNullJson textJ = false then
        match jsParseInt (jsToStringF fuel idxJ) with
        | some i =>
          if 0 ≤ i - 1 ∧ i - 1 < (n : ℤ) then
            results.set (i - 1).toNat (jsTextValue fuel textJ)
          else results
        | none => results
      else results
    | _, _ => results
  | .arr xs =>
    if 2 ≤ xs.length then
      match xs[0]?, xs[1]? with
      | some idxJ, some textJ =>
        match jsParseInt (jsToStringF fuel idxJ) with
        | some i =>
          if 0 ≤ i - 1 ∧ i - 1 < (n : ℤ) then
            results.set (i - 1).toNat (jsTextValue fuel textJ)
          else results
        | none => results
      | _, _ => results
    else results
  | _ => results

/-- The standard-format branch of parseBatchTranslations: a results array
of expectedCount empty strings, filled by the forEach loop. -/
def parseTranslationsItems (fuel n : ℕ) (items : List Json) : List Str :=
  items.foldl (applyItem fuel n) (List.replicate n (ofStr ""))

/-- The index and text payload an entry carries, when the entry passes the
guards of the forEach loop (the claim-side reading of one entry). -/
def entryFields : Json → Option (Json × Json)
  | .obj fs =>
    match getField fs (ofStr "index"), getField fs (ofStr "text") with
    | some idxJ, some textJ =>
      if jsTruthy idxJ = true ∧ isNullJson textJ = false then some (idxJ, textJ)
      else none
    | _, _ => none
  | .arr xs =>
    if 2 ≤ xs.length then
      match xs[0]?, xs[1]? with
      | some idxJ, some textJ => some (idxJ, textJ)
      | _, _ => none
    else none
  | _ => none

/-- The self-reported index of an entry, as parseInt sees it. -/
def entryIndex (fuel : ℕ) (item : Json) : Option ℤ :=
  (entryFields item).bind (fun p => jsParseInt (jsToStringF fuel p.1))

/-- The delivered text of an entry. -/
def entryText (fuel : ℕ) (item : Json) : Option Str :=
  (entryFields item).map (fun p => jsTextValue fuel p.2)

/-- Concrete entries for the C10 witness: indices 2, 1 and 0; the
zero-indexed entry is discarded. -/
def itemsW : List Json :=
  [Json.obj [(ofStr "index", Json.num 2), (ofStr "text", Json.str (ofStr "b"))],
    Json.obj [(ofStr "index", Json.num 1), (ofStr "text", Json.str (ofStr "a"))],
    Json.obj [(ofStr "index", Json.num 0), (ofStr "text", Json.str (ofStr "z"))]]

/-- Lowercase folding for the case-insensitive fence regex. -/
def toLowerCh (c : Char) : Char :=
  if 65 ≤ c.toNat ∧ c.toNat ≤ 90 then Char.ofNat (c.toNat + 32) else c

/-- Match a literal pattern case-insensitively at the head of a string. -/
def dropLitCI : Str → Str → Option Str
  | [], s => some s
  | _ :: _, [] => none
  | p :: ps, c :: cs => if toLowerCh c = toLowerCh p then dropLitCI ps cs else none

/-- The replace of the anchored case-insensitive json code-fence opener
(three backticks, the letters json, trailing whitespace). -/
def stripFenceJsonHead (s : Str) : Str :=
  match dropLitCI (ofStr "```json") s with
  | some r => r.dropWhile isJsWs
  | none => s

/-- The replace of the anchored plain code-fence opener. -/
def stripFenceHead (s : Str) : Str :=
  match dropLit (ofStr "```") s with
  | some r => r.dropWhile isJsWs
  | none => s

/-- The replace of the anchored code-fence closer (whitespace then three
backticks at the end of the string). -/
def stripFenceEnd (s : Str) : Str :=
  match s.reverse with
  | c1 :: c2 :: c3 :: rest =>
    if c1 = Char.ofNat 96 ∧ c2 = Char.ofNat 96 ∧ c3 = Char.ofNat 96 then
      (rest.dropWhile isJsWs).reverse
    else s
  | _ => s

/-- Find the first think closing tag, returning the remainder after it. -/
def dropThinkClose : Str → Option Str
  | [] => none
  | c :: cs =>
    if (ofStr "</think>").isPrefixOf (c :: cs) then some ((c :: cs).drop 8)
    else dropThinkClose cs

/-- The global replace of the lazy think-tag regex: every region from an
opening think tag to the nearest closing tag is removed; an opener with no
closer stays (the lazy body cannot match). -/
def removeThinkF : ℕ → Str → Str
  | 0, s => s
  | fuel + 1, s =>
    match s with
    | [] => []
    | c :: cs =>
      if (ofStr "<think>").isPrefixOf (c :: cs) then
        match dropThinkClose ((c :: cs).drop 7) with
        | some rest => removeThinkF fuel rest
        | none => c :: removeThinkF fuel cs
      else c :: removeThinkF fuel cs

/-- The global replace of the translation-note regex: an opening
parenthesis (either width), optional whitespace, the four characters of
the note marker, then lazily up to the first closing parenthesis. -/
def removeNoteF : ℕ → Str → Str
  | 0, s => s
  | _ + 1, [] => []
  | fuel + 1, c :: cs =>
    if c = '（' ∨ c = '(' then
      match dropLit (ofStr "翻译说明") (cs.dropWhile isJsWs) with
      | some r1 =>
        match r1.dropWhile (fun ch => !(ch = '）' || ch = ')')) with
        | _ :: rest => removeNoteF fuel rest
        | [] => c :: removeNoteF fuel cs
      | none => c :: removeNoteF fuel cs
    else c :: removeNoteF fuel cs

/-- Skip any prose before the first opening brace or bracket (the
jsonStartMatch step); when neither occurs the string is left alone. -/
def skipToJsonStart (s : Str) : Str :=
  if s.any (fun c => c = '\x7b' || c = '[') then
    s.dropWhile (fun c => !(c = '\x7b' || c = '['))
  else s

/-- First index whose character is a closing brace or bracket followed
only by whitespace (the jsonEndMatch regex). -/
def findCloseWsEndAux : Str → ℕ → Option ℕ
  | [], _ => none
  | c :: cs, i =>
    if (c = '\x7d' ∨ c = ']') ∧ cs.all isJsWs then some i
    else findCloseWsEndAux cs (i + 1)

/-- The jsonEnd truncation step, ported literally: the matched text of the
regex reaches the end of the string, so endPos always equals the length
and the truncation branch never fires. -/
def cutAfterJsonEnd (s : Str) : Str :=
  match findCloseWsEndAux s 0 with
  | some i =>
    let endPos := i + 1 + (s.drop (i + 1)).length
    if endPos < s.length then s.take endPos else s
  | none => s

/-- The whole JSON-extraction cleaning chain of parseBatchTranslations. -/
def cleanBatchJson (result : Str) : Str :=
  let j0 := trimStr result
  let j1 := stripFenceEnd (stripFenceJsonHead j0)
  let j2 := stripFenceEnd (stripFenceHead j1)
  let j3 := trimStr (removeThinkF (j2.length + 1) j2)
  let j4 := trimStr (removeNoteF (j3.length + 1) j3)
  cutAfterJsonEnd (skipToJsonStart j4)

/-- The lookahead of the numbered-line fallback regex under the m flag:
either a newline, optional whitespace and a bracketed digit follow, or
only whitespace up to a line end or the end of input follows. -/
def fallbackLookahead (u : Str) : Bool :=
  (match u with
   | '\n' :: rest =>
     (match rest.dropWhile isJsWs with
      | '[' :: d :: _ => isDigitCh d
      | _ => false)
   | _ => false)
  || (u.dropWhile isJsWs = [] || (u.takeWhile isJsWs).any (fun c => c = '\n'))

/-- The lazy capture of the numbered-line fallback: extend until the
lookahead first holds (it always holds at the end of input). -/
def lazyCapTo : Str → Str
  | [] => []
  | c :: rest =>
    if fallbackLookahead (c :: rest) then []
    else c :: lazyCapTo rest

/-- Try the numbered-line pattern at a line start: a bracketed digit run,
greedy whitespace, then the lazy capture.  Returns the numeral value, the
captured text and the remaining input. -/
def matchNumberedAt (u : Str) : Option (ℕ × Str × Str) :=
  match u with
  | '[' :: r =>
    let ds := r.takeWhile isDigitCh
    if ds = [] then none
    else
      match r.drop ds.length with
      | ']' :: r2 =>
        let r3 := r2.dropWhile isJsWs
        let cap := lazyCapTo r3
        some (digitsToNat 10 (fun c => c.toNat - 48) ds, cap, r3.drop cap.length)
      | _ => none
  | _ => none

/-- The exec loop of the global multiline numbered-line regex: the anchor
holds at the start of input and right after a newline; after a match the
scan resumes where the capture ended. -/
def scanMatchesF : ℕ → Str → Bool → List (ℕ × Str)
  | 0, _, _ => []
  | _ + 1, [], _ => []
  | fuel + 1, c :: rest, atStart =>
    if atStart then
      match matchNumberedAt (c :: rest) with
      | some (idx, cap, after) =>
        let consumed := (c :: rest).take ((c :: rest).length - after.length)
        (idx, cap) :: scanMatchesF fuel after (consumed.getLast? = some '\n')
      | none => scanMatchesF fuel rest (c = '\n')
    else scanMatchesF fuel rest (c = '\n')

/-- Assignment into a JavaScript array at a numeric index: in range it
overwrites, beyond the length it extends the array with holes. -/
def updateSparse (l : List (Option Str)) (i : ℕ) (v : Str) : List (Option Str) :=
  if i < l.length then l.set i (some v)
  else (l ++ List.replicate (i - l.length) none) ++ [some v]

/-- The replace stripping one leading bracketed index marker and the
whitespace after it. -/
def stripLeadingIndexMarker (s : Str) : Str :=
  match s with
  | '[' :: r =>
    let ds := r.takeWhile isDigitCh
    if ds = [] then s
    else
      match r.drop ds.length with
      | ']' :: r2 => r2.dropWhile isJsWs
      | _ => s
  | _ => s

/-- One match attempt of the blank-line split regex at a position: a
newline whose maximal whitespace run contains another newline; the match
consumes through the last newline of the run. -/
def blankMatchAt (u : Str) : Option Str :=
  match u with
  | '\n' :: rest =>
    let run := rest.takeWhile isJsWs
    if run.any (fun c => c = '\n') then
      let trailing := run.reverse.takeWhile (fun c => !(c = '\n'))
      some (trailing.reverse ++ rest.drop run.length)
    else none
  | _ => none

/-- String.prototype.split on the blank-line regex. -/
def splitBlankF : ℕ → Str → Str → List Str
  | 0, acc, _ => [acc.reverse]
  | _ + 1, acc, [] => [acc.reverse]
  | fuel + 1, acc, c :: rest =>
    match blankMatchAt (c :: rest) with
    | some rem => acc.reverse :: splitBlankF fuel [] rem
    | none => splitBlankF fuel (c :: acc) rest

/-- The text fallbacks of parseBatchTranslations: first the numbered-line
split (writing each captured text, trimmed and stripped of a leaked
marker, at its numeral minus one — a numeral of zero addresses index -1,
which touches no array slot), then, when the resulting array length
differs from the expected count, the blank-line split (trimmed, emptied
parts dropped, markers stripped, cut to the expected count). -/
def textFallback (r : Str) (n : ℕ) : List (Option Str) :=
  let ms := scanMatchesF (r.length + 1) r true
  let results := ms.foldl
    (fun acc m =>
      if m.1 = 0 then acc
      else updateSparse acc (m.1 - 1) (stripLeadingIndexMarker (trimStr m.2)))
    []
  if results.length ≠ n then
    let parts0 := splitBlankF (r.length + 1) [] r
    let parts1 := (parts0.map trimStr).filter (fun p => decide (p ≠ []))
    let parts2 := parts1.map stripLeadingIndexMarker
    (parts2.take n).map some
  else results

/-- The translations-array branch test: the field is truthy and an array
(an array is always truthy, so this is exactly: the field is an array). -/
def arrayField (parsed : Json) (key : Str) : Option (List Json) :=
  match parsed with
  | .obj fs =>
    match getField fs key with
    | some (.arr items) => some items
    | _ => none
  | _ => none

/-- The translation-as-string branch test: the field is a truthy
(nonempty) string. -/
def stringField (parsed : Json) (key : Str) : Option Str :=
  match parsed with
  | .obj fs =>
    match getField fs key with
    | some (.str t) => if t = [] then none else some t
    | _ => none
  | _ => none

/-- parseBatchTranslations from jsonParser.ts on a string result: clean,
attempt JSON (the standard translations branch, the wrong singular branch,
the translation-as-one-string branch that re-enters the text fallback on
the inner string), otherwise fall back to the numbered-line and blank-line
text parsing of the original result.  The returned array may be sparse
(holes are none); the JSON branches always return exactly expectedCount
entries. -/
def parseBatchTranslations (result : Str) (expectedCount : ℕ) : List (Option Str) :=
  let fuel := 2 * result.length + 4
  match jsonParse (cleanBatchJson result) with
  | some parsed =>
    match arrayField parsed (ofStr "translations") with
    | some items => (parseTranslationsItems fuel expectedCount items).map some
    | none =>
      match arrayField parsed (ofStr "translation") with
      | some items => (parseTranslationsItems fuel expectedCount items).map some
      | none =>
        match stringField parsed (ofStr "translation") with
        | some t => textFallback t expectedCount
        | none => textFallback result expectedCount
  | none => textFallback result expectedCount

/-- One numbered outbound line: the bracketed 1-based index, a space, the
text. -/
def numberedItem (i : ℕ) (text : Str) : Str :=
  '[' :: (intToStr (i : ℤ) ++ (']' :: ' ' :: text))

/-- Number a list of texts starting at the given 1-based index. -/
def numberTexts : ℕ → List Str → List Str
  | _, [] => []
  | i, t :: ts => numberedItem (i + 1) t :: numberTexts (i + 1) ts

/-- The outbound payload of translateBatch: the numbered texts joined by
blank lines. -/
def buildOrigins (texts : List Str) : Str :=
  List.intercalate (ofStr "\n\n") (numberTexts 0 texts)

/-- The batch_translate runtime message as constructed by translateBatch
in batchTranslate.ts: the first task's context, the joined payload and the
number of items sent. -/
structure BatchMsg where
  context : Str
  origin : Str
  count : ℕ
deriving DecidableEq

/-- The message translateBatch of batchTranslate.ts sends for a group. -/
def buildBatchMsg (tasks : List BatchTask) : BatchMsg :=
  { context := ((tasks.head?).map BatchTask.context).getD []
    origin := buildOrigins (tasks.map BatchTask.origin)
    count := tasks.length }

/-- validateBatchTranslations of batchTranslate.ts: only compares the two
counts; the outcome is logged and the distribution proceeds regardless. -/
def validateBatchCount (originalTexts : List Str) (translated : List (Option Str)) : Bool :=
  decide (originalTexts.length = translated.length)

/-- The result-distribution loop of translateBatch in batchTranslate.ts:
request i is resolved with results[i] when that is a non-empty string, and
with its own origin when the slot is empty, a hole, or beyond the parsed
array (the JavaScript falsy test on results[i]). -/
def distributeResults : List BatchTask → List (Option Str) → List Str
  | [], _ => []
  | t :: ts, [] => t.origin :: distributeResults ts []
  | t :: ts, r :: rs =>
    (match r with
      | some v => if v = [] then t.origin else v
      | none => t.origin) :: distributeResults ts rs

/-- translateBatch of batchTranslate.ts after the transport returned the
raw string: parse against the batch size, then distribute. -/
def translateBatchTS (tasks : List BatchTask) (raw : Str) : List Str :=
  distributeResults tasks (parseBatchTranslations raw tasks.length)

/-- Concrete batch for the C9 witness. -/
def tasksC9 : List BatchTask :=
  [⟨ofStr "one", ofStr "ctx"⟩, ⟨ofStr "two", ofStr "ctx"⟩]

/-- Concrete raw transport reply for the C9 witness: the parser recovers
an entry for index 1 only, so request 0 gets the translation and request 1
falls back to its own source text. -/
def rawC9 : Str :=
  ofStr "\x7b\"translations\":[\x7b\"index\":1,\"text\":\"translated\"\x7d]\x7d"

/-- Word character of the regex escape backslash-w. -/
def isWordCh (c : Char) : Bool := isDigitCh c || isLatin c || c = '_'

/-- Helper counting starts of maximal runs of the predicate after a
previous character. -/
def runStartsAux (p : Char → Bool) : Char → Str → ℕ
  | _, [] => 0
  | prev, c :: cs => (if p c && !p prev then 1 else 0) + runStartsAux p c cs

/-- Number of maximal runs of the predicate (the match count of a
word-boundary-delimited global regex). -/
def runStarts (p : Char → Bool) : Str → ℕ
  | [] => 0
  | c :: cs => (if p c then 1 else 0) + runStartsAux p c cs

/-- estimateTokenCount from part_005 (the validation-side estimator):
0 for the empty string, else 1 per CJK character plus 1.3 per word run of
the text with its CJK characters replaced by spaces, rounded up. -/
def estimateTokenCount (text : Str) : ℕ :=
  if text = [] then 0
  else
    let chineseCount := (text.filter isCJK).length
    let replaced := text.map (fun c => if isCJK c then ' ' else c)
    let englishCount := runStarts isWordCh replaced
    ceilTen (10 * chineseCount + 13 * englishCount)

/-- The extreme ratio bounds of part_005 (translated tokens over original
tokens beyond 8, or below one eighth, are implausible).  Ratios are exact
here: t / o > 8 iff t > 8 o, and t / o < 0.125 iff 8 t < o. -/
def invalidAt (original : Str) (trans : Option Str) : Bool :=
  let transFalsy := match trans with | none => true | some v => decide (v = [])
  if original = [] ∨ transFalsy = true then
    decide (original ≠ []) && transFalsy
  else
    match trans with
    | some v =>
      let o := estimateTokenCount original
      let t := estimateTokenCount v
      if o = 0 then false
      else decide (8 * o < t) || decide (8 * t < o)
    | none => false

/-- The per-index validation loop of validateBatchTranslations
(part_005), collecting the invalid indices. -/
def invalidIndicesAux : ℕ → List Str → List (Option Str) → List ℕ
  | _, [], _ => []
  | _, _ :: _, [] => []
  | i, o :: os, t :: ts =>
    (if invalidAt o t then [i] else []) ++ invalidIndicesAux (i + 1) os ts

/-- validateBatchTranslations from part_005: a size mismatch marks every
index invalid; otherwise each index is checked against the emptiness and
ratio rules. -/
def invalidIndices (origs : List Str) (trans : List (Option Str)) : List ℕ :=
  if origs.length ≠ trans.length then List.range origs.length
  else invalidIndicesAux 0 origs trans

/-- The repair loop after a failed validation: every invalid index gets
its own original text written back into the results array. -/
def overwriteInvalid (results : List (Option Str)) (origs : List Str)
    (idxs : List ℕ) : List (Option Str) :=
  idxs.foldl (fun acc idx => updateSparse acc idx ((origs[idx]?).getD [])) results

/-- Append one task index under its source text, preserving the insertion
order of the JavaScript Map of translateBatch (part_005). -/
def addIdx : List (Str × List ℕ) → Str → ℕ → List (Str × List ℕ)
  | [], s, i => [(s, [i])]
  | (k, idxs) :: rest, s, i =>
    if k = s then (k, idxs ++ [i]) :: rest
    else (k, idxs) :: addIdx rest s i

/-- The uniqueTexts loop of translateBatch (part_005): every task index is
appended under its source text, first-occurrence order. -/
def collectUniqueAux : List Str → ℕ → List (Str × List ℕ) → List (Str × List ℕ)
  | [], _, acc => acc
  | t :: ts, i, acc => collectUniqueAux ts (i + 1) (addIdx acc t i)

/-- The deduplication map of translateBatch (part_005), as an ordered
association list from each distinct source text to the ascending list of
task indices carrying it. -/
def collectUnique (texts : List Str) : List (Str × List ℕ) :=
  collectUniqueAux texts 0 []

/-- The batch_translate message the dedup path of translateBatch
(part_005) sends: the context of the first task of the first unique entry,
one numbered line per unique text, and the unique count. -/
def dedupMsg (tasks : List BatchTask) : BatchMsg :=
  let u := collectUnique (tasks.map BatchTask.origin)
  { context := (u.head?.bind (fun e => e.2.head?.bind
      (fun i => (tasks[i]?).map BatchTask.context))).getD []
    origin := buildOrigins (u.map Prod.fst)
    count := u.length }

/-- The translated text delivered for unique entry i: results[i] when
truthy, the entry's own source text otherwise. -/
def entryValue (res : List (Option Str)) (i : ℕ) (orig : Str) : Str :=
  match res[i]? with
  | some (some t) => if t = [] then orig else t
  | _ => orig

/-- The fan-out loop of the dedup path: unique entry number i resolves
every task index it carries with its delivered text. -/
def distributeDedupAux : ℕ → List (Str × List ℕ) → List (Option Str)
    → List (Option Str) → List (Option Str)
  | _, [], _, out => out
  | i, (orig, idxs) :: rest, res, out =>
    let v := entryValue res i orig
    distributeDedupAux (i + 1) rest res
      (idxs.foldl (fun o idx => o.set idx (some v)) out)

/-- The resolutions of the dedup path of translateBatch (part_005): parse
against the unique count, write the originals back over the indices the
ratio validation rejected, then fan the entry values out to every task;
slot p of the output is the resolution of task p (none = never resolved). -/
def translateBatchDedupOutcomes (tasks : List BatchTask) (raw : Str) :
    List (Option Str) :=
  let u := collectUnique (tasks.map BatchTask.origin)
  let results := parseBatchTranslations raw u.length
  let results2 := overwriteInvalid results (u.map Prod.fst)
    (invalidIndices (u.map Prod.fst) results)
  distributeDedupAux 0 u results2 (List.replicate tasks.length none)

/-- translateBatchNormal from part_005: parse, validate, write originals
back over rejected indices, distribute. -/
def translateBatchNormalP5 (tasks : List BatchTask) (raw : Str) : List Str :=
  let results := parseBatchTranslations raw tasks.length
  let origs := tasks.map BatchTask.origin
  let results2 := overwriteInvalid results origs (invalidIndices origs results)
  distributeResults tasks results2

/-- translateBatch from part_005: with all texts distinct the normal path
runs; with duplicates the dedup path runs.  The pair is the outbound
message and the per-task resolutions. -/
def translateBatchP5 (tasks : List BatchTask) (raw : Str) :
    BatchMsg × List (Option Str) :=
  let u := collectUnique (tasks.map BatchTask.origin)
  if u.length = tasks.length then
    (buildBatchMsg tasks, (translateBatchNormalP5 tasks raw).map some)
  else
    (dedupMsg tasks, translateBatchDedupOutcomes tasks raw)

/-- The keys of the dedup association list, in insertion order. -/
def keysOf (acc : List (Str × List ℕ)) : List Str := acc.map Prod.fst

/-- The invariant of the uniqueTexts loop after processing the prefix P:
the keys are exactly the distinct texts of P, without duplicates, and each
entry carries exactly the positions of P holding its key. -/
def uniqueInv (P : List Str) (acc : List (Str × List ℕ)) : Prop :=
  (∀ k : Str, k ∈ keysOf acc ↔ k ∈ P) ∧ (keysOf acc).Nodup ∧
    ∀ kp ∈ acc,
      kp.2 = (List.range P.length).filter (fun j => decide (P[j]? = some kp.1))

/-- The concrete batch of the claim: five requests of which three share
one source text and two are unique. -/
def tasksC4 : List BatchTask :=
  [⟨ofStr "dup text", ofStr "ctx"⟩, ⟨ofStr "alpha", ofStr "ctx"⟩,
    ⟨ofStr "dup text", ofStr "ctx"⟩, ⟨ofStr "beta", ofStr "ctx"⟩,
    ⟨ofStr "dup text", ofStr "ctx"⟩]

/-- A transport reply translating the three unique texts. -/
def rawC4 : Str :=
  ofStr "\x7b\"translations\":[\x7b\"index\":1,\"text\":\"DUP\"\x7d,\x7b\"index\":2,\"text\":\"ALPHA\"\x7d,\x7b\"index\":3,\"text\":\"BETA\"\x7d]\x7d"

/-- Settlement of one request's future. -/
inductive Outcome where
  | resolved : Str → Outcome
  | rejected : Outcome
  | pending : Outcome
deriving DecidableEq

/-- parseBatchResult from part_004: like parseBatchTranslations but with
only the fence-stripping cleanup, only the standard translations branch
(entries in object form only), and the same two text fallbacks. -/
def applyItemObj (fuel n : ℕ) (results : List Str) (item : Json) : List Str :=
  match item with
  | .obj fs =>
    match getField fs (ofStr "index"), getField fs (ofStr "text") with
    | some idxJ, some textJ =>
      if jsTruthy idxJ = true ∧ isNullJson textJ = false then
        match jsParseInt (jsToStringF fuel idxJ) with
        | some i =>
          if 0 ≤ i - 1 ∧ i - 1 < (n : ℤ) then
            results.set (i - 1).toNat (jsTextValue fuel textJ)
          else results
        | none => results
      else results
    | _, _ => results
  | _ => results

/-- parseBatchResult from part_004. -/
def parseBatchResultP4 (result : Str) (n : ℕ) : List (Option Str) :=
  let cleaned := stripFenceEnd (stripFenceHead (stripFenceEnd
    (stripFenceJsonHead (trimStr result))))
  match jsonParse cleaned with
  | some parsed =>
    match arrayField parsed (ofStr "translations") with
    | some items =>
      (items.foldl (applyItemObj (2 * result.length + 4) n)
        (List.replicate n (ofStr ""))).map some
    | none => textFallback result n
  | none => textFallback result n

/-- translateBatch from part_004: the dedup check, then either the normal
or the fan-out distribution, both without ratio validation.  Slot p holds
the resolution of task p. -/
def translateBatchP4Outcomes (tasks : List BatchTask) (raw : Str) :
    List (Option Str) :=
  let u := collectUnique (tasks.map BatchTask.origin)
  if u.length = tasks.length then
    (distributeResults tasks (parseBatchResultP4 raw tasks.length)).map some
  else
    distributeDedupAux 0 u (parseBatchResultP4 raw u.length)
      (List.replicate tasks.length none)

/-- The per-group handler of processBatch in part_004: when translateBatch
completed, its resolutions stand; when it threw (transport failure or a
non-string reply, modelled as a missing raw string), every task of the
group is retried individually through translateSingle, and a task is
rejected exactly when its own single call fails too. -/
def processGroupP4 (group : List BatchTask) (transportReply : Option Str)
    (single : BatchTask → Option Str) : List Outcome :=
  match transportReply with
  | some raw =>
    (translateBatchP4Outcomes group raw).map (fun o =>
      match o with
      | some v => Outcome.resolved v
      | none => Outcome.pending)
  | none =>
    group.map (fun t =>
      match single t with
      | some r => Outcome.resolved r
      | none => Outcome.rejected)

/-- The per-group handler of processBatch in batchTranslate.ts: when
translateBatch threw, every task of the group is rejected; there is no
per-item fallback in this revision. -/
def processGroupTS (group : List BatchTask) (transportReply : Option Str) :
    List Outcome :=
  match transportReply with
  | some raw =>
    (translateBatchTS group raw).map Outcome.resolved
  | none =>
    group.map (fun _ => Outcome.rejected)

/-- A two-task group, transport failing at batch level. -/
def groupC2 : List BatchTask :=
  [⟨ofStr "first", ofStr "ctx"⟩, ⟨ofStr "second", ofStr "ctx"⟩]

/-- Events of the batch queue of batchTranslate.ts.  enqueue i is a
batchTranslate call for (valid, uncached) text i: it pushes the task and
(re)arms the window timer.  timerFire is the timeout callback: it nulls
the timer and calls processBatch.  complete f is the settlement of an
in-flight dispatch in which each task i resolves with text f i;
completeErr is a dispatch whose groups all failed, rejecting its tasks.
clear is a clearBatchQueue call. -/
inductive QEvent where
  | enqueue (i : ℕ)
  | timerFire
  | complete (f : ℕ → Str)
  | completeErr
  | clear

/-- Observable state of the batch queue module: the pending queue, whether
the window timer is armed, the isProcessing flag, the tasks of the dispatch
in flight, and the settlement log of resolved (with their text) and
rejected task ids. -/
structure QState where
  queue : List ℕ
  timer : Bool
  processing : Bool
  inFlight : List ℕ
  resolvedWith : List (ℕ × Str)
  rejected : List ℕ
deriving DecidableEq

/-- One event step of the queue module of batchTranslate.ts.  The dispatch
of processBatch is modelled as one unit (its groups settle together), and
every enqueued text is assumed valid and uncached. -/
def qstep (s : QState) (e : QEvent) : QState :=
  match e with
  | .enqueue i => { s with queue := s.queue ++ [i], timer := true }
  | .timerFire =>
    if s.timer = false then s
    else if s.queue = [] then { s with timer := false }
    else if s.processing = true then { s with timer := false }
    else { s with timer := false, processing := true,
                  inFlight := s.queue, queue := [] }
  | .complete f =>
    if s.processing = true then
      { s with resolvedWith := s.resolvedWith ++ s.inFlight.map (fun i => (i, f i)),
               inFlight := [], processing := false }
    else s
  | .completeErr =>
    if s.processing = true then
      { s with rejected := s.rejected ++ s.inFlight,
               inFlight := [], processing := false }
    else s
  | .clear =>
    { s with timer := false, queue := [], rejected := s.rejected ++ s.queue }

/-- Run a sequence of events from a state. -/
def qrun (s : QState) (evs : List QEvent) : QState := evs.foldl qstep s

/-- The initial module state: empty queue, no timer, idle. -/
def initQ : QState := ⟨[], false, false, [], [], []⟩

/-- Internal events: those the module produces by itself, with no further
page activity (timer callbacks and dispatch settlements). -/
def InternalEv (e : QEvent) : Prop :=
  e = QEvent.timerFire ∨ (∃ f, e = QEvent.complete f) ∨ e = QEvent.completeErr

/-- The execution of C3: text 0 is enqueued and its window fires; while its
dispatch is in flight, text 1 is enqueued (re-arming the timer); that
window fires during processing, so processBatch returns early with the
timer already nulled; then the dispatch completes. -/
def stuckTrace : List QEvent :=
  [QEvent.enqueue 0, QEvent.timerFire, QEvent.enqueue 1,
   QEvent.timerFire, QEvent.complete (fun _ => ofStr "T")]

/-- The state after stuckTrace. -/
def stuckState : QState := qrun initQ stuckTrace

/-- The execution refuting C7: text 0 is enqueued, its window fires and its
dispatch goes in flight, then clearBatchQueue is called, then the dispatch
completes against the transport. -/
def clearTrace : List QEvent :=
  [QEvent.enqueue 0, QEvent.timerFire, QEvent.clear,
   QEvent.complete (fun _ => ofStr "X")]

lemma ceilTen_eq_ceil (m : ℕ) : (ceilTen m : ℤ) = ⌈((m : ℚ) / 10)⌉ := by
  have h10 : (0 : ℚ) < 10 := by norm_num
  symm
  rw [Int.ceil_eq_iff]
  constructor
  · rw [lt_div_iff₀ h10]
    have : 10 * ceilTen m ≤ m + 9 := by
      unfold ceilTen
      omega
    have hm : ((10 : ℚ) * (ceilTen m : ℚ)) ≤ (m : ℚ) + 9 := by exact_mod_cast this
    push_cast
    nlinarith
  · rw [div_le_iff₀ h10]
    have : m ≤ 10 * ceilTen m := by
      unfold ceilTen
      omega
    have hm : ((m : ℚ)) ≤ 10 * (ceilTen m : ℚ) := by exact_mod_cast this
    push_cast
    linarith

lemma latinRunsAux_length_le (s : Str) :
    (latinRunsAux s []).length ≤ (s.filter isLatin).length ∧
      ∀ c cur, (latinRunsAux s (c :: cur)).length ≤ (s.filter isLatin).length + 1 := by
  induction s with
  | nil =>
    constructor
    · simp [latinRunsAux]
    · intro c cur
      simp [latinRunsAux]
  | cons a as ih =>
    obtain ⟨ih0, ih1⟩ := ih
    by_cases h : isLatin a
    · constructor
      · have := ih1 a []
        simp only [latinRunsAux, h, if_true, List.filter_cons, List.length_cons]
        omega
      · intro c cur
        have := ih1 a (c :: cur)
        simp only [latinRunsAux, h, if_true, List.filter_cons, List.length_cons]
        omega
    · constructor
      · simp only [latinRunsAux, h, Bool.false_eq_true, if_false, if_true,
          List.filter_cons]
        exact ih0
      · intro c cur
        simp only [latinRunsAux, h, Bool.false_eq_true, if_false, List.cons_ne_nil,
          List.filter_cons, List.length_cons]
        omega

/-- The number of maximal Latin runs is at most the number of Latin
characters, hence the otherChars subtraction in estimateTokens never
truncates. -/
lemma latinRuns_length_le (s : Str) :
    (latinRuns s).length ≤ (s.filter isLatin).length :=
  (latinRunsAux_length_le s).1

lemma isCJK_isLatin_not_both (c : Char) : ¬(isCJK c = true ∧ isLatin c = true) := by
  simp only [isCJK, isLatin, Bool.and_eq_true, Bool.or_eq_true, decide_eq_true_eq]
  omega

lemma cjk_latin_counts_le (s : Str) :
    (s.filter isCJK).length + (s.filter isLatin).length ≤ s.length := by
  induction s with
  | nil => simp
  | cons c cs ih =>
    have hd := isCJK_isLatin_not_both c
    by_cases h1 : isCJK c
    · have h2 : isLatin c = false := by
        rcases Bool.eq_false_or_eq_true (isLatin c) with h | h
        · exact absurd ⟨h1, h⟩ hd
        · exact h
      simp only [List.filter_cons, h1, if_true, h2, Bool.false_eq_true, if_false,
        List.length_cons]
      omega
    · by_cases h2 : isLatin c <;>
        simp only [List.filter_cons, h1, h2, Bool.false_eq_true, if_false, if_true,
          List.length_cons] <;> omega

/-- The source formula of estimateTokens, written exactly as in the code
with rational weights and Math.ceil: the ceilTen-based definition agrees
with it. -/
lemma estimateTokens_eq_ceil (text : Str) :
    (estimateTokens text : ℤ) =
      ⌈(2 * (((text.filter isCJK).length : ℚ))
          + 13 / 10 * ((latinRuns text).length : ℚ)
          + 1 / 2 * ((text.length : ℚ) - ((text.filter isCJK).length : ℚ)
              - ((latinRuns text).length : ℚ)))⌉ := by
  have hle : (text.filter isCJK).length + (latinRuns text).length ≤ text.length := by
    have h1 := latinRuns_length_le text
    have h2 := cjk_latin_counts_le text
    omega
  unfold estimateTokens
  rw [ceilTen_eq_ceil]
  congr 1
  have hsub : ((text.length - (text.filter isCJK).length
      - (latinRuns text).length : ℕ) : ℚ)
      = (text.length : ℚ) - ((text.filter isCJK).length : ℚ)
        - ((latinRuns text).length : ℚ) := by
    have : (text.filter isCJK).length ≤ text.length := by
      simpa using List.length_filter_le isCJK text
    push_cast [Nat.cast_sub (by omega : (text.filter isCJK).length ≤ text.length),
      Nat.cast_sub (by omega : (latinRuns text).length
        ≤ text.length - (text.filter isCJK).length)]
    ring
  rw [show ((20 * (text.filter isCJK).length + 13 * (latinRuns text).length
      + 5 * (text.length - (text.filter isCJK).length - (latinRuns text).length) : ℕ) : ℚ)
      = 20 * ((text.filter isCJK).length : ℚ) + 13 * ((latinRuns text).length : ℚ)
        + 5 * ((text.length - (text.filter isCJK).length
            - (latinRuns text).length : ℕ) : ℚ) by push_cast; ring]
  rw [hsub]
  ring

lemma groupTasksAux_join (ts : List BatchTask) :
    ∀ cur tok, (groupTasksAux ts cur tok).flatten = cur ++ ts := by
  induction ts with
  | nil =>
    intro cur tok
    by_cases h : cur = [] <;> simp [groupTasksAux, h]
  | cons t ts ih =>
    intro cur tok
    simp only [groupTasksAux]
    by_cases h1 : maxTokensPerBatch < taskCost t
    · by_cases h2 : cur = [] <;> simp [h1, h2, ih]
    · by_cases h2 : maxTokensPerBatch < tok + taskCost t ∧ cur ≠ []
      · simp [h1, h2, ih]
      · simp [h1, h2, ih]

lemma groupTasksAux_bound (ts : List BatchTask) :
    ∀ cur tok, tok = groupCost cur → tok ≤ maxTokensPerBatch →
    ∀ g ∈ groupTasksAux ts cur tok,
      groupCost g ≤ maxTokensPerBatch ∨
        ∃ t, g = [t] ∧ maxTokensPerBatch < taskCost t := by
  induction ts with
  | nil =>
    intro cur tok hsum hle g hg
    by_cases h : cur = []
    · simp [groupTasksAux, h] at hg
    · simp only [groupTasksAux, if_neg h, List.mem_singleton] at hg
      subst hg
      exact Or.inl (hsum ▸ hle)
  | cons t ts ih =>
    intro cur tok hsum hle g hg
    simp only [groupTasksAux] at hg
    by_cases h1 : maxTokensPerBatch < taskCost t
    · rw [if_pos h1] at hg
      rcases List.mem_append.mp hg with hg | hg
      · by_cases h2 : cur = []
        · simp [h2] at hg
        · simp only [if_neg h2, List.mem_singleton] at hg
          subst hg
          exact Or.inl (hsum ▸ hle)
      · rcases List.mem_cons.mp hg with hg | hg
        · subst hg
          exact Or.inr ⟨t, rfl, h1⟩
        · exact ih [] 0 (by simp [groupCost]) (by simp [maxTokensPerBatch]) g hg
    · rw [if_neg h1] at hg
      by_cases h2 : maxTokensPerBatch < tok + taskCost t ∧ cur ≠ []
      · rw [if_pos h2] at hg
        rcases List.mem_cons.mp hg with hg | hg
        · subst hg
          exact Or.inl (hsum ▸ hle)
        · exact ih [t] (taskCost t) (by simp [groupCost]) (le_of_not_lt h1) g hg
      · rw [if_neg h2] at hg
        refine ih (cur ++ [t]) (tok + taskCost t) ?_ ?_ g hg
        · simp [groupCost, hsum]
        · push_neg at h2
          by_cases h3 : cur = []
          · subst h3
            have h0 : tok = 0 := by simpa [groupCost] using hsum
            rw [h0, zero_add]
            exact le_of_not_lt h1
          · exact le_of_not_lt fun hlt => h3 (h2 hlt)

/-- C6: concatenating the groups returned by groupTasks, in group order and
within-group order, yields exactly the original input list, and the empty
input yields zero groups. -/
theorem groupTasks_order_preserving_partition (tasks : List BatchTask) :
    (groupTasks tasks).flatten = tasks ∧
      groupTasks ([] : List BatchTask) = [] := by
  constructor
  · simpa using groupTasksAux_join tasks [] 0
  · simp [groupTasks, groupTasksAux]

/-- C5: every group produced by groupTasks has summed estimated token cost
at most MAX_TOKENS_PER_BATCH, except that a group may be a single task whose
own estimated cost exceeds the ceiling; and no task is ever dropped (every
input task is a member of some returned group). -/
theorem groupTasks_token_bound (tasks : List BatchTask) :
    (∀ g ∈ groupTasks tasks,
        groupCost g ≤ maxTokensPerBatch ∨
          ∃ t, g = [t] ∧ maxTokensPerBatch < taskCost t) ∧
      ∀ t ∈ tasks, ∃ g ∈ groupTasks tasks, t ∈ g := by
  constructor
  · exact groupTasksAux_bound tasks [] 0 (by simp [groupCost]) (by simp [maxTokensPerBatch])
  · intro t ht
    have hj : (groupTasks tasks).flatten = tasks := by
      simpa using groupTasksAux_join tasks [] 0
    have : t ∈ (groupTasks tasks).flatten := by
      rw [hj]
      exact ht
    simpa using List.mem_flatten.mp this

/-- Witness for C5 at a concrete input. -/
theorem groupTasks_token_bound_witness :
    (groupCost [⟨ofStr "hi", ofStr "c"⟩] ≤ maxTokensPerBatch ∨
        ∃ t, [(⟨ofStr "hi", ofStr "c"⟩ : BatchTask)] = [t] ∧
          maxTokensPerBatch < taskCost t) ∧
      ∃ g ∈ groupTasks [⟨ofStr "hi", ofStr "c"⟩],
        (⟨ofStr "hi", ofStr "c"⟩ : BatchTask) ∈ g :=
  ⟨(groupTasks_token_bound [⟨ofStr "hi", ofStr "c"⟩]).1
      [⟨ofStr "hi", ofStr "c"⟩] (by decide),
    (groupTasks_token_bound [⟨ofStr "hi", ofStr "c"⟩]).2
      ⟨ofStr "hi", ofStr "c"⟩ (by decide)⟩

lemma specLatinRunCountAux_notLatin (prev : Char) (hprev : ¬isLatin prev) :
    ∀ s : Str, specLatinRunCountAux prev s = specLatinRunCount s := by
  intro s
  cases s with
  | nil => rfl
  | cons c cs =>
    simp only [specLatinRunCountAux, specLatinRunCount]
    congr 1
    simp [hprev]

lemma latinRunsAux_length_eq_spec (s : Str) :
    (latinRunsAux s []).length = specLatinRunCount s ∧
      ∀ c cur, isLatin c →
        (latinRunsAux s (c :: cur)).length = 1 + specLatinRunCountAux c s := by
  induction s with
  | nil =>
    constructor
    · rfl
    · intro c cur _
      simp [latinRunsAux, specLatinRunCountAux]
  | cons a as ih =>
    obtain ⟨ih0, ih1⟩ := ih
    constructor
    · by_cases h : isLatin a
      · simp only [latinRunsAux, h, if_true, specLatinRunCount]
        rw [ih1 a [] h]
      · simp only [latinRunsAux, h, Bool.false_eq_true, if_false, if_true,
          specLatinRunCount]
        rw [ih0, specLatinRunCountAux_notLatin a h as]
        omega
    · intro c cur hc
      by_cases h : isLatin a
      · simp only [latinRunsAux, h, if_true, specLatinRunCountAux]
        rw [ih1 a (c :: cur) h]
        simp [hc]
      · simp only [latinRunsAux, h, Bool.false_eq_true, if_false,
          List.cons_ne_nil, List.length_cons, specLatinRunCountAux]
        rw [ih0, specLatinRunCountAux_notLatin a h as]
        simp only [Bool.false_and, Bool.false_eq_true, if_false]
        omega

/-- The number of maximal [a-zA-Z]+ regex matches equals the spec-side run
count. -/
lemma latinRuns_length_eq_spec (s : Str) :
    (latinRuns s).length = specLatinRunCount s :=
  (latinRunsAux_length_eq_spec s).1

lemma specCJKCount_eq (s : Str) : specCJKCount s = (s.filter isCJK).length := by
  simp [specCJKCount, List.countP_eq_length_filter]

lemma specLatinCharCount_eq (s : Str) :
    specLatinCharCount s = (s.filter isLatin).length := by
  simp [specLatinCharCount, List.countP_eq_length_filter]

/-- C8 counterexample: on the string "abc" the source estimator yields 3
(its otherChars term counts the two non-initial letters of the single run
at 0.5 each), while the formula of the claim yields 2. -/
theorem estimateTokens_claim_counterexample :
    (estimateTokens (ofStr "abc") : ℤ) = 3 ∧
      claimEstimateTokens (ofStr "abc") = 2 ∧
      (estimateTokens (ofStr "abc") : ℤ) ≠ claimEstimateTokens (ofStr "abc") := by
  have h1 : (estimateTokens (ofStr "abc") : ℤ) = 3 := by
    norm_num [show estimateTokens (ofStr "abc") = 3 from by decide]
  have h2 : claimEstimateTokens (ofStr "abc") = 2 := by
    have ha : specCJKCount (ofStr "abc") = 0 := by decide
    have hb : specLatinRunCount (ofStr "abc") = 1 := by decide
    have hc : specLatinCharCount (ofStr "abc") = 3 := by decide
    have hd : (ofStr "abc").length = 3 := by decide
    unfold claimEstimateTokens
    rw [ha, hb, hc, hd]
    norm_num
    rw [Int.ceil_eq_iff]
    norm_num
  exact ⟨h1, h2, by rw [h1, h2]; norm_num⟩

/-- C8 amended: for every string, estimateTokens equals the ceiling of
2 x CJK-character count + 1.3 x maximal-Latin-run count + 0.5 x (length
minus CJK count minus RUN count). -/
theorem estimateTokens_amended_formula (s : Str) :
    (estimateTokens s : ℤ) = amendedEstimateTokens s := by
  rw [estimateTokens_eq_ceil]
  unfold amendedEstimateTokens
  have hrun := latinRuns_length_eq_spec s
  have hcjk := specCJKCount_eq s
  have hle : specCJKCount s + specLatinRunCount s ≤ s.length := by
    have h1 := latinRuns_length_le s
    have h2 := cjk_latin_counts_le s
    rw [hcjk, hrun] at *
    omega
  rw [hcjk, hrun] at *
  congr 1
  have hsub : ((s.length - (s.filter isCJK).length - specLatinRunCount s : ℕ) : ℚ)
      = (s.length : ℚ) - ((s.filter isCJK).length : ℚ) - (specLatinRunCount s : ℚ) := by
    push_cast [Nat.cast_sub (by omega : (s.filter isCJK).length ≤ s.length),
      Nat.cast_sub (by omega : specLatinRunCount s
        ≤ s.length - (s.filter isCJK).length)]
    ring
  rw [hsub]

lemma mem_dropWhile {p : Char → Bool} {a : Char} :
    ∀ {l : Str}, a ∈ l.dropWhile p → a ∈ l := by
  intro l
  induction l with
  | nil => simp
  | cons c cs ih =>
    intro h
    by_cases hp : p c
    · simp only [List.dropWhile_cons, hp, if_true] at h
      exact List.mem_cons_of_mem c (ih h)
    · simp only [List.dropWhile_cons, hp, Bool.false_eq_true, if_false] at h
      exact h

lemma mem_trimStr {a : Char} {s : Str} (h : a ∈ trimStr s) : a ∈ s := by
  unfold trimStr at h
  rw [List.mem_reverse] at h
  have h1 := mem_dropWhile h
  rw [List.mem_reverse] at h1
  exact mem_dropWhile h1

/-- The scan loop never completes an object when neither the input nor the
accumulated current object contains a closing brace. -/
lemma scanObjects_no_close_brace :
    ∀ (s : Str) (st : ScanState),
      (∀ c ∈ s, c ≠ '\x7d') → (∀ c ∈ st.currentObj, c ≠ '\x7d') →
      scanObjects s st = st.completeObjects := by
  intro s
  induction s with
  | nil =>
    intro st _ _
    rfl
  | cons c cs ih =>
    intro st hs hcur
    have hc : c ≠ '\x7d' := hs c (List.mem_cons_self c cs)
    have hcs : ∀ x ∈ cs, x ≠ '\x7d' := fun x hx => hs x (List.mem_cons_of_mem c hx)
    have hcur2 : ∀ x ∈ st.currentObj ++ [c], x ≠ '\x7d' := by
      intro x hx
      rcases List.mem_append.mp hx with hx | hx
      · exact hcur x hx
      · rw [List.mem_singleton] at hx
        exact hx ▸ hc
    by_cases he : st.escapeNext
    · rw [scanObjects, if_pos he]
      exact ih _ hcs hcur2
    · by_cases hb : c = '\\'
      · rw [scanObjects, if_neg he, if_pos hb]
        exact ih _ hcs hcur2
      · have hcond : ¬((if c = '"' then !st.inString else st.inString) = false ∧
            (if (if c = '"' then !st.inString else st.inString) = true then st.depth
              else if c = '\x7b' then st.depth + 1
              else if c = '\x7d' then st.depth - 1
              else st.depth) = 0 ∧
            (trimStr (st.currentObj ++ [c])).getLast? = some '\x7d') := by
          rintro ⟨_, _, hlast⟩
          have hmem0 : '\x7d' ∈ (trimStr (st.currentObj ++ [c])).getLast? := by
            rw [Option.mem_def]
            exact hlast
          obtain ⟨hne, heq⟩ := List.mem_getLast?_eq_getLast hmem0
          have hmem : '\x7d' ∈ trimStr (st.currentObj ++ [c]) := by
            rw [heq]
            exact List.getLast_mem hne
          exact hcur2 '\x7d' (mem_trimStr hmem) rfl
        rw [scanObjects, if_neg he, if_neg hb]
        simp only at hcond ⊢
        rw [if_neg hcond]
        exact ih _ hcs hcur2

lemma lazyCapture_no_close_brace (s : Str) :
    ∀ c ∈ lazyCapture s, c ≠ '\x7d' := by
  intro c hc
  have h := List.mem_takeWhile_imp hc
  simp only [Bool.not_eq_true'] at h
  simp only [Bool.or_eq_false_iff, decide_eq_false_iff_not] at h
  exact h.2

/-- repairTruncatedJson can never recover anything: the lazy capture stops
at the first closing brace or bracket, so the captured array content
contains no closing brace and the scan finds no complete object. -/
lemma repairTruncatedJson_eq_none (content : Str) :
    repairTruncatedJson content = none := by
  unfold repairTruncatedJson
  by_cases h : strContains (ofStr "\"translations\"") content = false
  · rw [if_pos h]
  · rw [if_neg h]
    cases hf : findTransArray content with
    | none => rfl
    | some rest =>
      simp only
      have hscan : scanObjects (lazyCapture rest) ⟨[], 0, [], false, false⟩ = [] :=
        scanObjects_no_close_brace (lazyCapture rest) ⟨[], 0, [], false, false⟩
          (lazyCapture_no_close_brace rest) (by intro c hc; simp at hc)
      rw [hscan]
      rfl

/-- C1 (code bug): on the sixteen-complete-entries-plus-fragment response,
and likewise on the repository's own truncation test case,
repairTruncatedJson recovers nothing at all: it returns null instead of a
reassembled JSON holding the sixteen complete entries, because its lazy
regex capture ends at the first closing brace of the response, so the
scanned array content never contains one single complete object. -/
theorem repairTruncatedJson_recovers_nothing :
    repairTruncatedJson truncatedResponse16 = none ∧
      repairTruncatedJson truncatedResponseSmall = none :=
  ⟨repairTruncatedJson_eq_none truncatedResponse16,
    repairTruncatedJson_eq_none truncatedResponseSmall⟩

lemma applyItem_char (fuel n : ℕ) (results : List Str) (item : Json) :
    applyItem fuel n results item =
      match entryIndex fuel item with
      | some i =>
        if 0 ≤ i - 1 ∧ i - 1 < (n : ℤ) then
          results.set (i - 1).toNat ((entryText fuel item).getD (ofStr ""))
        else results
      | none => results := by
  cases item with
  | obj fs =>
    simp only [applyItem, entryIndex, entryText, entryFields]
    cases getField fs (ofStr "index") with
    | none => rfl
    | some idxJ =>
      cases getField fs (ofStr "text") with
      | none => rfl
      | some textJ =>
        by_cases hg : jsTruthy idxJ = true ∧ isNullJson textJ = false
        · cases hp : jsParseInt (jsToStringF fuel idxJ) with
          | none => simp [hg, hp]
          | some i => simp [hg, hp]
        · simp [hg]
  | arr xs =>
    simp only [applyItem, entryIndex, entryText, entryFields]
    by_cases hl : 2 ≤ xs.length
    · cases hx0 : xs[0]? with
      | none => simp [hl, hx0]
      | some idxJ =>
        cases hx1 : xs[1]? with
        | none => simp [hl, hx0, hx1]
        | some textJ =>
          cases hp : jsParseInt (jsToStringF fuel idxJ) with
          | none => simp [hl, hx0, hx1, hp]
          | some i => simp [hl, hx0, hx1, hp]
    · simp [hl]
  | null => rfl
  | bool b => rfl
  | num m => rfl
  | str st => rfl

lemma applyItem_length (fuel n : ℕ) (results : List Str) (item : Json) :
    (applyItem fuel n results item).length = results.length := by
  rw [applyItem_char]
  cases entryIndex fuel item with
  | none => rfl
  | some i =>
    dsimp only
    by_cases h : 0 ≤ i - 1 ∧ i - 1 < (n : ℤ)
    · rw [if_pos h]
      exact List.length_set _ _ _
    · rw [if_neg h]

/-- C10: when parseBatchTranslations goes through the JSON translations
branch, the returned array has exactly expectedCount entries; an entry is
placed at its self-reported index minus one; entries whose index is
missing, zero, unparsable or outside 1..expectedCount are silently
discarded (in particular a zero-based answer loses the entry with index
zero); a later entry with the same index overwrites an earlier one; and a
position no surviving entry reports holds the empty string.  Formally:
position p holds the delivered text of the LAST entry whose self-reported
index is p+1, and the empty string when there is none. -/
theorem parseBatchTranslations_json_branch (fuel n : ℕ) (items : List Json) :
    (parseTranslationsItems fuel n items).length = n ∧
      ∀ p : ℕ, p < n →
        (parseTranslationsItems fuel n items)[p]? =
          some (((items.filter
              (fun it => decide (entryIndex fuel it = some ((p : ℤ) + 1)))).getLast?).elim
            (ofStr "") (fun it => (entryText fuel it).getD (ofStr ""))) := by
  induction items using List.reverseRecOn with
  | nil =>
    constructor
    · simp [parseTranslationsItems]
    · intro p hp
      simp [parseTranslationsItems, List.getElem?_replicate, hp]
  | append_singleton items it ih =>
    obtain ⟨ihlen, ihval⟩ := ih
    have hstep : parseTranslationsItems fuel n (items ++ [it])
        = applyItem fuel n (parseTranslationsItems fuel n items) it := by
      simp [parseTranslationsItems]
    constructor
    · rw [hstep, applyItem_length, ihlen]
    · intro p hp
      rw [hstep, applyItem_char]
      cases hE : entryIndex fuel it with
      | none =>
        dsimp only
        rw [ihval p hp]
        have hfil : (items ++ [it]).filter
            (fun x => decide (entryIndex fuel x = some ((p : ℤ) + 1)))
            = items.filter (fun x => decide (entryIndex fuel x = some ((p : ℤ) + 1))) := by
          rw [List.filter_append]
          simp [hE]
        rw [hfil]
      | some i =>
        dsimp only
        by_cases hip : i = (p : ℤ) + 1
        · have hr : 0 ≤ i - 1 ∧ i - 1 < (n : ℤ) := by
            constructor <;> omega
          rw [if_pos hr]
          have hpt : (i - 1).toNat = p := by omega
          rw [hpt]
          rw [List.getElem?_set_self (by rw [ihlen]; exact hp)]
          have hfil : (items ++ [it]).filter
              (fun x => decide (entryIndex fuel x = some ((p : ℤ) + 1)))
              = items.filter (fun x => decide (entryIndex fuel x = some ((p : ℤ) + 1)))
                ++ [it] := by
            rw [List.filter_append]
            simp [hE, hip]
          rw [hfil, List.getLast?_concat]
          rfl
        · have hfil : (items ++ [it]).filter
              (fun x => decide (entryIndex fuel x = some ((p : ℤ) + 1)))
              = items.filter (fun x => decide (entryIndex fuel x = some ((p : ℤ) + 1))) := by
            rw [List.filter_append]
            simp only [List.filter_cons, List.filter_nil, hE]
            have : (decide (some i = some ((p : ℤ) + 1))) = false := by
              simp [hip]
            rw [this]
            simp
          by_cases hr : 0 ≤ i - 1 ∧ i - 1 < (n : ℤ)
          · rw [if_pos hr]
            have hq : (i - 1).toNat ≠ p := by omega
            rw [List.getElem?_set_ne hq]
            rw [ihval p hp, hfil]
          · rw [if_neg hr]
            rw [ihval p hp, hfil]

/-- Witness for C10 at a concrete input. -/
theorem parseBatchTranslations_json_branch_witness :
    (0 : ℕ) < 2 ∧
      (parseTranslationsItems 9 2 itemsW)[0]? =
        some (((itemsW.filter
            (fun it => decide (entryIndex 9 it = some ((0 : ℤ) + 1)))).getLast?).elim
          (ofStr "") (fun it => (entryText 9 it).getD (ofStr ""))) ∧
      (parseTranslationsItems 9 2 itemsW)[0]? = some (ofStr "a") :=
  ⟨by norm_num, (parseBatchTranslations_json_branch 9 2 itemsW).2 0 (by norm_num),
    by decide⟩

lemma distributeResults_spec :
    ∀ (tasks : List BatchTask) (results : List (Option Str)),
      (distributeResults tasks results).length = tasks.length ∧
        ∀ i (h : i < tasks.length),
          (distributeResults tasks results)[i]? =
            some (match results[i]? with
                  | some (some v) => if v = [] then (tasks.get ⟨i, h⟩).origin else v
                  | _ => (tasks.get ⟨i, h⟩).origin) := by
  intro tasks
  induction tasks with
  | nil =>
    intro results
    refine ⟨rfl, ?_⟩
    intro i h
    simp at h
  | cons t ts ih =>
    intro results
    cases results with
    | nil =>
      obtain ⟨ihlen, ihval⟩ := ih []
      constructor
      · simpa [distributeResults] using ihlen
      · intro i h
        cases i with
        | zero => simp [distributeResults]
        | succ j =>
          have hj : j < ts.length := Nat.lt_of_succ_lt_succ h
          have hv := ihval j hj
          simpa [distributeResults] using hv
    | cons r rs =>
      obtain ⟨ihlen, ihval⟩ := ih rs
      constructor
      · simpa [distributeResults] using ihlen
      · intro i h
        cases i with
        | zero =>
          cases r with
          | none => simp [distributeResults]
          | some v => simp [distributeResults]
        | succ j =>
          have hj : j < ts.length := Nat.lt_of_succ_lt_succ h
          have hv := ihval j hj
          simpa [distributeResults] using hv

/-- C9: whenever a batch dispatch in translateBatch of batchTranslate.ts
reaches the result-distribution step (the transport returned a string and
parseBatchTranslations completed), every request of the batch is resolved:
position i receives the parsed entry for 1-based index i+1 when a
non-empty one was recovered, and its own original source text otherwise;
the distribution never rejects a request nor leaves one pending, whatever
the parser produced (gaps and count mismatches included). -/
theorem translateBatch_failsoft_distribution (tasks : List BatchTask) (raw : Str) :
    (translateBatchTS tasks raw).length = tasks.length ∧
      ∀ i (h : i < tasks.length),
        (translateBatchTS tasks raw)[i]? =
          some (match (parseBatchTranslations raw tasks.length)[i]? with
                | some (some v) =>
                  if v = [] then (tasks.get ⟨i, h⟩).origin else v
                | _ => (tasks.get ⟨i, h⟩).origin) :=
  distributeResults_spec tasks (parseBatchTranslations raw tasks.length)

/-- Witness for C9 at a concrete input. -/
theorem translateBatch_failsoft_distribution_witness :
    (0 : ℕ) < tasksC9.length ∧
      (translateBatchTS tasksC9 rawC9)[0]? =
        some (match (parseBatchTranslations rawC9 tasksC9.length)[0]? with
              | some (some v) =>
                if v = [] then (tasksC9.get ⟨0, by decide⟩).origin else v
              | _ => (tasksC9.get ⟨0, by decide⟩).origin) ∧
      translateBatchTS tasksC9 rawC9 = [ofStr "translated", ofStr "two"] :=
  ⟨by decide,
    (translateBatch_failsoft_distribution tasksC9 rawC9).2 0 (by decide),
    by decide⟩

lemma foldl_set_getElem (v : Str) :
    ∀ (idxs : List ℕ) (out : List (Option Str)) (p : ℕ),
      (idxs.foldl (fun o idx => o.set idx (some v)) out)[p]? =
        if p ∈ idxs ∧ p < out.length then some (some v) else out[p]? := by
  intro idxs
  induction idxs with
  | nil =>
    intro out p
    simp
  | cons a rest ih =>
    intro out p
    simp only [List.foldl_cons]
    rw [ih, List.length_set]
    by_cases h1 : p ∈ rest ∧ p < out.length
    · rw [if_pos h1, if_pos ⟨List.mem_cons_of_mem a h1.1, h1.2⟩]
    · rw [if_neg h1, List.getElem?_set]
      by_cases h2 : a = p
      · subst h2
        by_cases h3 : a < out.length
        · rw [if_pos rfl, if_pos h3, if_pos ⟨List.mem_cons_self a rest, h3⟩]
        · rw [if_pos rfl, if_neg h3, if_neg (fun hc => h3 hc.2)]
          symm
          exact List.getElem?_eq_none (by omega)
      · rw [if_neg h2]
        have : ¬(p ∈ a :: rest ∧ p < out.length) := by
          rintro ⟨hm, hl⟩
          rcases List.mem_cons.mp hm with hm | hm
          · exact h2 hm.symm
          · exact h1 ⟨hm, hl⟩
        rw [if_neg this]

lemma foldl_set_length (v : Str) (idxs : List ℕ) :
    ∀ out : List (Option Str),
      (idxs.foldl (fun o idx => o.set idx (some v)) out).length = out.length := by
  induction idxs with
  | nil => intro out; rfl
  | cons a rest ih =>
    intro out
    simp only [List.foldl_cons]
    rw [ih, List.length_set]

lemma distributeDedupAux_length :
    ∀ (u : List (Str × List ℕ)) (i : ℕ) (res out : List (Option Str)),
      (distributeDedupAux i u res out).length = out.length := by
  intro u
  induction u with
  | nil => intro i res out; rfl
  | cons e rest ih =>
    intro i res out
    obtain ⟨orig, idxs⟩ := e
    simp only [distributeDedupAux]
    rw [ih, foldl_set_length]

lemma distributeDedupAux_untouched :
    ∀ (u : List (Str × List ℕ)) (i : ℕ) (res out : List (Option Str)) (p : ℕ),
      (∀ e ∈ u, p ∉ e.2) →
      (distributeDedupAux i u res out)[p]? = out[p]? := by
  intro u
  induction u with
  | nil => intro i res out p _; rfl
  | cons e rest ih =>
    intro i res out p hnot
    obtain ⟨orig, idxs⟩ := e
    simp only [distributeDedupAux]
    rw [ih _ _ _ _ (fun e2 he2 => hnot e2 (List.mem_cons_of_mem _ he2))]
    rw [foldl_set_getElem]
    have hp : p ∉ idxs := hnot (orig, idxs) (List.mem_cons_self _ _)
    rw [if_neg (fun hc => hp hc.1)]

lemma distributeDedupAux_found :
    ∀ (u : List (Str × List ℕ)) (i : ℕ) (res out : List (Option Str)) (p e : ℕ)
      (orig : Str) (idxs : List ℕ),
      u[e]? = some (orig, idxs) → p ∈ idxs → p < out.length →
      (∀ e2 orig2 idxs2, e2 ≠ e → u[e2]? = some (orig2, idxs2) → p ∉ idxs2) →
      (distributeDedupAux i u res out)[p]? =
        some (some (entryValue res (i + e) orig)) := by
  intro u
  induction u with
  | nil =>
    intro i res out p e orig idxs he
    simp at he
  | cons hd rest ih =>
    intro i res out p e orig idxs he hp hlen huniq
    obtain ⟨orig0, idxs0⟩ := hd
    cases e with
    | zero =>
      simp only [List.getElem?_cons_zero, Option.some_inj] at he
      have heq : orig0 = orig ∧ idxs0 = idxs := by
        constructor
        · exact congrArg Prod.fst he
        · exact congrArg Prod.snd he
      obtain ⟨ho, hi2⟩ := heq
      subst ho
      subst hi2
      simp only [distributeDedupAux]
      have hrest : ∀ e2 ∈ rest, p ∉ e2.2 := by
        intro e2 he2
        obtain ⟨e2i, he2i⟩ := List.mem_iff_getElem?.mp he2
        have hcons : ((orig0, idxs0) :: rest)[e2i + 1]? = some (e2.1, e2.2) := by
          rw [List.getElem?_cons_succ]
          simpa using he2i
        exact huniq (e2i + 1) e2.1 e2.2 (by omega) hcons
      rw [distributeDedupAux_untouched rest _ _ _ _ hrest]
      rw [foldl_set_getElem]
      rw [if_pos ⟨hp, hlen⟩]
      rw [Nat.add_zero]
    | succ e1 =>
      simp only [List.getElem?_cons_succ] at he
      simp only [distributeDedupAux]
      have hnot0 : p ∉ idxs0 :=
        huniq 0 orig0 idxs0 (by omega) (by simp)
      have hlen2 : p < (idxs0.foldl
          (fun o idx => o.set idx (some (entryValue res i orig0))) out).length := by
        rw [foldl_set_length]
        exact hlen
      have := ih (i + 1) res _ p e1 orig idxs he hp hlen2 ?_
      · rw [this, show i + 1 + e1 = i + (e1 + 1) from by omega]
      · intro e2 orig2 idxs2 hne he2
        exact huniq (e2 + 1) orig2 idxs2 (by omega) (by simpa using he2)

lemma addIdx_eq_of_not_mem :
    ∀ (acc : List (Str × List ℕ)) (t : Str) (i : ℕ),
      t ∉ keysOf acc → addIdx acc t i = acc ++ [(t, [i])] := by
  intro acc
  induction acc with
  | nil => intro t i _; rfl
  | cons kp rest ih =>
    intro t i hnm
    obtain ⟨k, idxs⟩ := kp
    have hk : ¬(k = t) := by
      intro h
      exact hnm (by simp [keysOf, h])
    simp only [addIdx, if_neg hk, List.cons_append, List.cons.injEq, true_and]
    refine ih t i (fun hm => hnm ?_)
    simp only [keysOf, List.map_cons, List.mem_cons]
    exact Or.inr hm

lemma addIdx_eq_of_mem :
    ∀ (acc : List (Str × List ℕ)) (t : Str) (i : ℕ),
      t ∈ keysOf acc →
      ∃ pre idxs0 post, acc = pre ++ (t, idxs0) :: post ∧ t ∉ keysOf pre ∧
        addIdx acc t i = pre ++ (t, idxs0 ++ [i]) :: post := by
  intro acc
  induction acc with
  | nil =>
    intro t i hm
    simp [keysOf] at hm
  | cons kp rest ih =>
    intro t i hm
    obtain ⟨k, idxs⟩ := kp
    by_cases hk : k = t
    · subst hk
      exact ⟨[], idxs, rest, by simp, by simp [keysOf], by simp [addIdx]⟩
    · have hm2 : t ∈ keysOf rest := by
        simp only [keysOf, List.map_cons, List.mem_cons] at hm
        rcases hm with hm | hm
        · exact absurd hm.symm hk
        · exact hm
      obtain ⟨pre, idxs0, post, h1, h2, h3⟩ := ih t i hm2
      refine ⟨(k, idxs) :: pre, idxs0, post, by rw [h1]; rfl, ?_, ?_⟩
      · simp only [keysOf, List.map_cons, List.mem_cons]
        rintro (h | h)
        · exact hk h.symm
        · exact h2 h
      · simp only [addIdx, if_neg hk, h3, List.cons_append]

lemma filter_range_notMem (P : List Str) (t : Str) (ht : t ∉ P) :
    (List.range P.length).filter (fun j => decide (P[j]? = some t)) = [] := by
  rw [List.filter_eq_nil_iff]
  intro j hj
  rw [List.mem_range] at hj
  simp only [decide_eq_true_eq]
  intro hEq
  exact ht (List.getElem?_mem hEq)

lemma filter_range_snoc (P : List Str) (t k : Str) :
    (List.range (P ++ [t]).length).filter (fun j => decide ((P ++ [t])[j]? = some k))
      = ((List.range P.length).filter (fun j => decide (P[j]? = some k)))
        ++ (if k = t then [P.length] else []) := by
  rw [List.length_append, List.length_singleton, List.range_succ, List.filter_append]
  congr 1
  · apply List.filter_congr
    intro j hj
    rw [List.mem_range] at hj
    rw [List.getElem?_append_left hj]
  · simp only [List.filter_cons, List.filter_nil, List.getElem?_concat_length]
    by_cases hk : k = t
    · subst hk
      simp
    · have : ¬(some t = some k) := by
        intro h
        exact hk (Option.some_inj.mp h).symm
      simp [this, hk]

lemma keysOf_append (a b : List (Str × List ℕ)) :
    keysOf (a ++ b) = keysOf a ++ keysOf b := by
  simp [keysOf]

lemma addIdx_inv (P : List Str) (t : Str) (acc : List (Str × List ℕ))
    (h : uniqueInv P acc) : uniqueInv (P ++ [t]) (addIdx acc t P.length) := by
  obtain ⟨hA, hB, hC⟩ := h
  by_cases hmem : t ∈ keysOf acc
  · obtain ⟨pre, idxs0, post, hacc, hpre, haddx⟩ := addIdx_eq_of_mem acc t P.length hmem
    have htP : t ∈ P := (hA t).mp hmem
    have hkeys : keysOf (pre ++ (t, idxs0 ++ [P.length]) :: post) = keysOf acc := by
      rw [hacc]
      simp [keysOf]
    rw [haddx]
    refine ⟨?_, ?_, ?_⟩
    · intro k
      rw [hkeys, hA k, List.mem_append, List.mem_singleton]
      constructor
      · exact Or.inl
      · rintro (h | h)
        · exact h
        · exact h ▸ htP
    · rw [hkeys]
      exact hB
    · intro kp hkp
      rcases List.mem_append.mp hkp with hkp | hkp
      · have hkpacc : kp ∈ acc := by
          rw [hacc]
          exact List.mem_append.mpr (Or.inl hkp)
        have hkt : ¬(kp.1 = t) := by
          intro hEq
          exact hpre (hEq ▸ (by simpa [keysOf] using List.mem_map_of_mem Prod.fst hkp))
        rw [hC kp hkpacc, filter_range_snoc, if_neg hkt, List.append_nil]
      · rcases List.mem_cons.mp hkp with hkp | hkp
        · subst hkp
          have hmid : (t, idxs0) ∈ acc := by
            rw [hacc]
            exact List.mem_append.mpr (Or.inr (List.mem_cons_self _ _))
          have := hC (t, idxs0) hmid
          simp only at this
          rw [filter_range_snoc, ← this]
          simp
        · have hkpacc : kp ∈ acc := by
            rw [hacc]
            exact List.mem_append.mpr (Or.inr (List.mem_cons_of_mem _ hkp))
          have hkt : ¬(kp.1 = t) := by
            intro hEq
            have hkeys2 : keysOf acc = keysOf pre ++ t :: keysOf post := by
              rw [hacc]
              simp [keysOf]
            have hnd := hB
            rw [hkeys2] at hnd
            have htpost : t ∉ keysOf post := by
              have := List.Nodup.of_append_right hnd
              simp only [List.nodup_cons] at this
              exact this.1
            exact htpost (hEq ▸ (by simpa [keysOf] using List.mem_map_of_mem Prod.fst hkp))
          rw [hC kp hkpacc, filter_range_snoc, if_neg hkt, List.append_nil]
  · have htP : t ∉ P := fun h => hmem ((hA t).mpr h)
    rw [addIdx_eq_of_not_mem acc t P.length hmem]
    refine ⟨?_, ?_, ?_⟩
    · intro k
      rw [keysOf_append, List.mem_append, hA k, List.mem_append, List.mem_singleton]
      have hsing : k ∈ keysOf [(t, [P.length])] ↔ k = t := by simp [keysOf]
      rw [hsing]
    · rw [keysOf_append]
      simp only [keysOf, List.map_cons, List.map_nil]
      rw [List.nodup_append]
      refine ⟨hB, List.nodup_singleton t, ?_⟩
      intro a ha hb
      simp only [List.mem_singleton] at hb
      exact hmem (hb ▸ ha)
    · intro kp hkp
      rcases List.mem_append.mp hkp with hkp | hkp
      · have hkt : ¬(kp.1 = t) := by
          intro hEq
          exact hmem (hEq ▸ (by simpa [keysOf] using List.mem_map_of_mem Prod.fst hkp))
        rw [hC kp hkp, filter_range_snoc, if_neg hkt, List.append_nil]
      · simp only [List.mem_singleton] at hkp
        subst hkp
        simp only [filter_range_snoc, if_pos rfl]
        rw [filter_range_notMem P t htP]
        rfl

lemma collectUniqueAux_inv :
    ∀ (ts P : List Str) (acc : List (Str × List ℕ)), uniqueInv P acc →
      uniqueInv (P ++ ts) (collectUniqueAux ts P.length acc) := by
  intro ts
  induction ts with
  | nil =>
    intro P acc h
    simpa using h
  | cons t ts ih =>
    intro P acc h
    have h2 := addIdx_inv P t acc h
    have h3 := ih (P ++ [t]) (addIdx acc t P.length) h2
    rw [List.length_append, List.length_singleton] at h3
    simpa [collectUniqueAux, List.append_assoc] using h3

lemma collectUnique_inv (origins : List Str) :
    uniqueInv origins (collectUnique origins) := by
  have h0 : uniqueInv [] ([] : List (Str × List ℕ)) := by
    refine ⟨by simp [keysOf], by simp [keysOf], by simp⟩
  have := collectUniqueAux_inv origins [] [] h0
  simpa [collectUnique] using this

/-- The dedup map has one entry per distinct source text. -/
lemma collectUnique_length (origins : List Str) :
    (collectUnique origins).length = origins.dedup.length := by
  obtain ⟨hA, hB, _⟩ := collectUnique_inv origins
  have hperm : List.Perm (keysOf (collectUnique origins)) origins.dedup := by
    rw [List.perm_ext_iff_of_nodup hB (List.nodup_dedup origins)]
    intro k
    rw [hA k, List.mem_dedup]
  have := hperm.length_eq
  simpa [keysOf] using this

/-- Every task position lies in exactly one entry of the dedup map: the
entry keyed by its own source text. -/
lemma collectUnique_covers (origins : List Str) (p : ℕ) (hp : p < origins.length) :
    ∃ (e : ℕ) (orig : Str) (idxs : List ℕ),
      (collectUnique origins)[e]? = some (orig, idxs) ∧ p ∈ idxs ∧
      origins[p]? = some orig ∧
      ∀ (e2 : ℕ) (orig2 : Str) (idxs2 : List ℕ), e2 ≠ e →
        (collectUnique origins)[e2]? = some (orig2, idxs2) → p ∉ idxs2 := by
  obtain ⟨hA, hB, hC⟩ := collectUnique_inv origins
  have hpget : origins[p]? = some (origins.get ⟨p, hp⟩) := by
    rw [List.getElem?_eq_getElem hp]
    rfl
  set k := origins.get ⟨p, hp⟩ with hk
  have hkmem : k ∈ keysOf (collectUnique origins) :=
    (hA k).mpr (List.getElem?_mem hpget)
  obtain ⟨kp, hkp, hkpk⟩ := List.mem_map.mp hkmem
  obtain ⟨k1, idxs1⟩ := kp
  simp only at hkpk
  subst hkpk
  obtain ⟨e, he⟩ := List.mem_iff_getElem?.mp hkp
  refine ⟨e, k, idxs1, he, ?_, hpget, ?_⟩
  · have := hC (k, idxs1) hkp
    simp only at this
    rw [this, List.mem_filter, List.mem_range]
    exact ⟨hp, by simp [hpget]⟩
  · intro e2 orig2 idxs2 hne he2
    intro hpin
    have hkp2 : (orig2, idxs2) ∈ collectUnique origins := List.getElem?_mem he2
    have hch := hC (orig2, idxs2) hkp2
    simp only at hch
    rw [hch, List.mem_filter, List.mem_range] at hpin
    have horig2 : origins[p]? = some orig2 := by
      have := hpin.2
      simpa using this
    have hkeq : orig2 = k := by
      rw [hpget] at horig2
      exact (Option.some_inj.mp horig2).symm
    have hkey1 : (keysOf (collectUnique origins))[e]? = some k := by
      simp [keysOf, he]
    have hkey2 : (keysOf (collectUnique origins))[e2]? = some k := by
      simp [keysOf, he2, hkeq]
    have he2len : e2 < (keysOf (collectUnique origins)).length := by
      by_contra hcon
      rw [List.getElem?_eq_none (by omega)] at hkey2
      exact Option.noConfusion hkey2
    exact hne (List.getElem?_inj he2len hB (hkey2.trans hkey1.symm))

lemma collectUnique_key_pos_unique (origins : List Str) {e1 e2 : ℕ} {k : Str}
    {x1 x2 : List ℕ}
    (h1 : (collectUnique origins)[e1]? = some (k, x1))
    (h2 : (collectUnique origins)[e2]? = some (k, x2)) : e1 = e2 := by
  obtain ⟨_, hB, _⟩ := collectUnique_inv origins
  have hk1 : (keysOf (collectUnique origins))[e1]? = some k := by
    simp [keysOf, h1]
  have hk2 : (keysOf (collectUnique origins))[e2]? = some k := by
    simp [keysOf, h2]
  have hlen : e1 < (keysOf (collectUnique origins)).length := by
    by_contra hcon
    rw [List.getElem?_eq_none (by omega)] at hk1
    exact Option.noConfusion hk1
  exact List.getElem?_inj hlen hB (hk1.trans hk2.symm)

/-- C4: on a batch containing duplicate source texts, translateBatch
(part_005 revision) takes the dedup path: the single outbound message
carries one numbered line per unique text and count equal to the number of
distinct source texts; every original request is still resolved; and any
two requests sharing a source text resolve to the identical translated
text. -/
theorem translateBatch_dedup_fanout (tasks : List BatchTask) (raw : Str)
    (hdup : ¬(collectUnique (tasks.map BatchTask.origin)).length = tasks.length) :
    (translateBatchP5 tasks raw).1.count
        = ((tasks.map BatchTask.origin).dedup).length ∧
      (∀ p, ∀ _hp : p < tasks.length,
        ∃ v : Str, (translateBatchP5 tasks raw).2[p]? = some (some v)) ∧
      ∀ i j, ∀ hi : i < tasks.length, ∀ hj : j < tasks.length,
        (tasks.get ⟨i, hi⟩).origin = (tasks.get ⟨j, hj⟩).origin →
        (translateBatchP5 tasks raw).2[i]? = (translateBatchP5 tasks raw).2[j]? := by
  have hif : translateBatchP5 tasks raw
      = (dedupMsg tasks, translateBatchDedupOutcomes tasks raw) := by
    simp only [translateBatchP5]
    rw [if_neg hdup]
  rw [hif]
  have hdef : translateBatchDedupOutcomes tasks raw
      = distributeDedupAux 0 (collectUnique (tasks.map BatchTask.origin))
          (overwriteInvalid
            (parseBatchTranslations raw
              (collectUnique (tasks.map BatchTask.origin)).length)
            ((collectUnique (tasks.map BatchTask.origin)).map Prod.fst)
            (invalidIndices
              ((collectUnique (tasks.map BatchTask.origin)).map Prod.fst)
              (parseBatchTranslations raw
                (collectUnique (tasks.map BatchTask.origin)).length)))
          (List.replicate tasks.length none) := rfl
  have hlenmap : (tasks.map BatchTask.origin).length = tasks.length :=
    List.length_map _ _
  refine ⟨?_, ?_, ?_⟩
  · show (dedupMsg tasks).count = _
    simp only [dedupMsg]
    exact collectUnique_length _
  · intro p hp
    obtain ⟨e, orig, idxs, he, hpin, _, huniq⟩ :=
      collectUnique_covers (tasks.map BatchTask.origin) p (by omega)
    refine ⟨entryValue (overwriteInvalid
        (parseBatchTranslations raw (collectUnique (tasks.map BatchTask.origin)).length)
        ((collectUnique (tasks.map BatchTask.origin)).map Prod.fst)
        (invalidIndices ((collectUnique (tasks.map BatchTask.origin)).map Prod.fst)
          (parseBatchTranslations raw
            (collectUnique (tasks.map BatchTask.origin)).length)))
      (0 + e) orig, ?_⟩
    show (translateBatchDedupOutcomes tasks raw)[p]? = _
    rw [hdef]
    exact distributeDedupAux_found _ 0 _ _ p e orig idxs he hpin
      (by rw [List.length_replicate]; exact hp) huniq
  · intro i j hi hj hsame
    have hoi : (tasks.map BatchTask.origin)[i]? = some ((tasks.get ⟨i, hi⟩).origin) := by
      rw [List.getElem?_map, List.getElem?_eq_getElem hi]
      rfl
    have hoj : (tasks.map BatchTask.origin)[j]? = some ((tasks.get ⟨j, hj⟩).origin) := by
      rw [List.getElem?_map, List.getElem?_eq_getElem hj]
      rfl
    obtain ⟨ei, origi, idxsi, hei, hpini, hporigi, huniqi⟩ :=
      collectUnique_covers (tasks.map BatchTask.origin) i (by omega)
    obtain ⟨ej, origj, idxsj, hej, hpinj, hporigj, huniqj⟩ :=
      collectUnique_covers (tasks.map BatchTask.origin) j (by omega)
    have horigi : origi = (tasks.get ⟨i, hi⟩).origin := by
      rw [hporigi] at hoi
      exact Option.some_inj.mp hoi
    have horigj : origj = (tasks.get ⟨j, hj⟩).origin := by
      rw [hporigj] at hoj
      exact Option.some_inj.mp hoj
    have hkeq : origj = origi := by
      rw [horigi, horigj, hsame]
    have hej2 : (collectUnique (tasks.map BatchTask.origin))[ej]? = some (origi, idxsj) := by
      rw [hkeq] at hej
      exact hej
    have heq : ei = ej := collectUnique_key_pos_unique (tasks.map BatchTask.origin) hei hej2
    show (translateBatchDedupOutcomes tasks raw)[i]?
        = (translateBatchDedupOutcomes tasks raw)[j]?
    rw [hdef]
    rw [distributeDedupAux_found _ 0 _ _ i ei origi idxsi hei hpini
      (by rw [List.length_replicate]; exact hi) huniqi]
    rw [distributeDedupAux_found _ 0 _ _ j ej origj idxsj hej hpinj
      (by rw [List.length_replicate]; exact hj) huniqj]
    rw [heq, hkeq]

/-- Witness for C4 at the concrete five-task batch: exactly three outbound
items, all five requests resolved, the three duplicates identical. -/
theorem translateBatch_dedup_fanout_witness :
    (¬(collectUnique (tasksC4.map BatchTask.origin)).length = tasksC4.length) ∧
      (translateBatchP5 tasksC4 rawC4).1.count
        = ((tasksC4.map BatchTask.origin).dedup).length ∧
      (∃ v : Str, (translateBatchP5 tasksC4 rawC4).2[0]? = some (some v)) ∧
      ((tasksC4.get ⟨0, by decide⟩).origin = (tasksC4.get ⟨2, by decide⟩).origin →
        (translateBatchP5 tasksC4 rawC4).2[0]?
          = (translateBatchP5 tasksC4 rawC4).2[2]?) ∧
      (translateBatchP5 tasksC4 rawC4).1.count = 3 ∧
      (translateBatchP5 tasksC4 rawC4).2
        = [some (ofStr "DUP"), some (ofStr "ALPHA"), some (ofStr "DUP"),
            some (ofStr "BETA"), some (ofStr "DUP")] :=
  ⟨by decide,
    (translateBatch_dedup_fanout tasksC4 rawC4 (by decide)).1,
    (translateBatch_dedup_fanout tasksC4 rawC4 (by decide)).2.1 0 (by decide),
    fun h =>
      (translateBatch_dedup_fanout tasksC4 rawC4 (by decide)).2.2 0 2
        (by decide) (by decide) h,
    by decide, by decide⟩

/-- C2 counterexample: in the processBatch of batchTranslate.ts (the first
cited source), a batch-level transport failure alone rejects every request
of the batch: no single-item re-dispatch exists on that path, so requests
are rejected although no single-item call of their own ever failed. -/
theorem processBatch_batch_failure_rejects_all :
    processGroupTS groupC2 none = [Outcome.rejected, Outcome.rejected] := by
  decide

/-- C2 amended: in the part_004 revision of processBatch, when the
batch-level transport call of a group fails, every request is re-dispatched
individually through translateSingle and resolved with its single-item
result; a request's future is rejected exactly when its own single-item
call also fails, so a batch-level failure alone never rejects a request of
that revision. -/
theorem processBatch_single_item_fallback (group : List BatchTask)
    (single : BatchTask → Option Str) :
    (processGroupP4 group none single).length = group.length ∧
      (∀ i, ∀ h : i < group.length,
        (processGroupP4 group none single)[i]? =
          some (match single (group.get ⟨i, h⟩) with
                | some r => Outcome.resolved r
                | none => Outcome.rejected)) ∧
      ∀ i, ∀ h : i < group.length,
        (processGroupP4 group none single)[i]? = some Outcome.rejected →
        single (group.get ⟨i, h⟩) = none := by
  refine ⟨by simp [processGroupP4], ?_, ?_⟩
  · intro i h
    simp only [processGroupP4, List.getElem?_map, List.getElem?_eq_getElem h]
    rfl
  · intro i h hrej
    simp only [processGroupP4, List.getElem?_map, List.getElem?_eq_getElem h,
      Option.map_some, Option.some_inj] at hrej
    cases hs : single group[i] with
    | none => rfl
    | some r => simp [hs] at hrej

/-- Witness for the amended C2 at a concrete group and single-item oracle:
the first request's single call succeeds and it resolves; the second one's
fails and only it is rejected. -/
theorem processBatch_single_item_fallback_witness :
    ((0 : ℕ) < groupC2.length ∧ (1 : ℕ) < groupC2.length) ∧
      (processGroupP4 groupC2 none
          (fun t => if t.origin = ofStr "first" then some (ofStr "ok") else none))[0]? =
        some (Outcome.resolved (ofStr "ok")) ∧
      (processGroupP4 groupC2 none
          (fun t => if t.origin = ofStr "first" then some (ofStr "ok") else none))[1]? =
        some Outcome.rejected ∧
      (fun t => if t.origin = ofStr "first" then some (ofStr "ok") else none)
          (groupC2.get ⟨1, by decide⟩) = none := by
  refine ⟨⟨by decide, by decide⟩, ?_, ?_, by decide⟩
  · have := (processBatch_single_item_fallback groupC2
      (fun t => if t.origin = ofStr "first" then some (ofStr "ok") else none)).2.1
      0 (by decide)
    rw [this]
    decide
  · have := (processBatch_single_item_fallback groupC2
      (fun t => if t.origin = ofStr "first" then some (ofStr "ok") else none)).2.1
      1 (by decide)
    rw [this]
    decide

/-- With no timer armed and no processing under way, internal events change
nothing. -/
theorem qstep_internal_fix (s : QState) (ht : s.timer = false)
    (hp : s.processing = false) (e : QEvent) (he : InternalEv e) :
    qstep s e = s := by
  rcases he with h | ⟨f, h⟩ | h <;> subst h <;> simp [qstep, ht, hp]

/-- With no timer armed and no processing under way, no sequence of
internal events changes the state. -/
theorem qrun_internal_fix (s : QState) (ht : s.timer = false)
    (hp : s.processing = false) :
    ∀ evs : List QEvent, (∀ e ∈ evs, InternalEv e) → qrun s evs = s := by
  intro evs
  induction evs with
  | nil => intro _; rfl
  | cons e es ih =>
    intro hevs
    have h1 : qstep s e = s := qstep_internal_fix s ht hp e (hevs e (by simp))
    rw [show qrun s (e :: es) = qrun (qstep s e) es from rfl, h1]
    exact ih (fun e2 he2 => hevs e2 (List.mem_cons_of_mem _ he2))

/-- C3: the liveness claim fails.  In the execution stuckTrace, request 1
is enqueued and its window timer fires, yet it is never picked up for
dispatch: the fire during processing returns early with the timer already
nulled, and after the in-flight dispatch completes the module is idle with
request 1 still queued, no timer armed, and nothing pending to re-check the
queue — so under every continuation of internal events request 1 is never
resolved nor rejected. -/
theorem batchTranslate_liveness_violation :
    stuckState.queue = [1] ∧ stuckState.timer = false ∧
      stuckState.processing = false ∧
      stuckState.resolvedWith = [(0, ofStr "T")] ∧
      stuckState.rejected = [] ∧
      ∀ evs : List QEvent, (∀ e ∈ evs, InternalEv e) →
        qrun stuckState evs = stuckState := by
  refine ⟨by decide, by decide, by decide, by decide, by decide, ?_⟩
  exact qrun_internal_fix stuckState (by decide) (by decide)

/-- Witness: the liveness-violation theorem applied to the concrete
continuation of one further (ineffective) timer callback. -/
theorem batchTranslate_liveness_violation_witness :
    (∀ e ∈ [QEvent.timerFire], InternalEv e) ∧
      qrun stuckState [QEvent.timerFire] = stuckState :=
  ⟨fun e he => by simp at he; subst he; exact Or.inl rfl,
   batchTranslate_liveness_violation.2.2.2.2.2 [QEvent.timerFire]
     (fun e he => by simp at he; subst he; exact Or.inl rfl)⟩

/-- C7 counterexample: clearBatchQueue rejects only the queued tasks
("拒绝所有等待中的任务"); a request already in flight at the moment of
clearing is not rejected, and when its dispatch later completes its result
IS delivered to the future that existed at clearing time — after
clearTrace, request 0 is resolved with the transport's text and nothing was
rejected. -/
theorem clearBatchQueue_inflight_still_resolves :
    (qrun initQ clearTrace).resolvedWith = [(0, ofStr "X")] ∧
      (qrun initQ clearTrace).rejected = [] := by
  decide

/-- C7 amended: clearBatchQueue synchronously rejects exactly the pending
(queued, not yet dispatched) requests, discards the queue and disarms the
timer; in-flight requests are untouched and nothing is resolved by the
call itself, and a dispatch already in flight still delivers its results
to its futures when it completes. -/
theorem clearBatchQueue_rejects_pending_only (s : QState) :
    (qstep s QEvent.clear).rejected = s.rejected ++ s.queue ∧
      (qstep s QEvent.clear).queue = [] ∧
      (qstep s QEvent.clear).timer = false ∧
      (qstep s QEvent.clear).inFlight = s.inFlight ∧
      (qstep s QEvent.clear).resolvedWith = s.resolvedWith ∧
      ∀ f : ℕ → Str, s.processing = true →
        (qstep (qstep s QEvent.clear) (QEvent.complete f)).resolvedWith =
          s.resolvedWith ++ s.inFlight.map (fun i => (i, f i)) := by
  refine ⟨rfl, rfl, rfl, rfl, rfl, ?_⟩
  intro f hpq
  simp [qstep, hpq]

/-- Witness for the amended C7 at a concrete state: one task queued, one in
flight; clear rejects the queued one, and the subsequent completion resolves
the in-flight one. -/
theorem clearBatchQueue_rejects_pending_only_witness :
    (QState.mk [5] true true [3] [] []).processing = true ∧
      (qstep (QState.mk [5] true true [3] [] []) QEvent.clear).rejected = [] ++ [5] ∧
      (qstep (qstep (QState.mk [5] true true [3] [] []) QEvent.clear)
          (QEvent.complete (fun _ => ofStr "Y"))).resolvedWith =
        [] ++ [3].map (fun i => (i, ofStr "Y")) :=
  ⟨rfl, (clearBatchQueue_rejects_pending_only (QState.mk [5] true true [3] [] [])).1,
   (clearBatchQueue_rejects_pending_only (QState.mk [5] true true [3] [] [])).2.2.2.2.2
     (fun _ => ofStr "Y") rfl⟩

end FluentRead
